import Mathlib

/-!
Verification of the flatfile directory widget's core pipeline
(`src/public/script.js`): CSV parsing, case-insensitive field resolution,
record normalization, exact and fuzzy search/ranking, HTML sanitization,
highlighting and date classification.  JavaScript strings are modelled by
Lean `String`/`List Char`, JavaScript objects by insertion-ordered
association lists, and the browser DOM by an explicit node tree.
-/

/-- JavaScript `String.prototype.includes`: `pat` occurs contiguously in `s`. -/
def strContains (s pat : String) : Bool :=
  decide (pat.toList <:+: s.toList)

/-- JavaScript `String.prototype.toLowerCase` (ASCII range, which covers every
input exercised here), computed over the character list. -/
def jsToLower (s : String) : String :=
  String.mk (s.toList.map Char.toLower)

/-- JavaScript `String.prototype.toUpperCase` (ASCII range), computed over the
character list. -/
def jsToUpper (s : String) : String :=
  String.mk (s.toList.map Char.toUpper)

/-- Strip leading and trailing whitespace from a character list. -/
def trimList (l : List Char) : List Char :=
  ((l.dropWhile Char.isWhitespace).reverse.dropWhile Char.isWhitespace).reverse

/-- JavaScript `String.prototype.trim`: strip leading and trailing whitespace. -/
def jsTrim (s : String) : String :=
  String.mk (trimList s.toList)

/-- Split a character list at every character satisfying `p`, keeping empty
segments, as JavaScript `String.prototype.split` with a single-character
pattern does. -/
def splitPred (p : Char → Bool) : List Char → List (List Char)
  | [] => [[]]
  | c :: rest =>
      if p c then [] :: splitPred p rest
      else
        match splitPred p rest with
        | [] => [[c]]
        | s :: ss => (c :: s) :: ss

/-- String version of `splitPred`. -/
def splitStr (s : String) (p : Char → Bool) : List String :=
  (splitPred p s.toList).map String.mk

/-- JavaScript object property assignment `obj[k] = v` on an insertion-ordered
association list: an existing key keeps its position and gets the new value,
a fresh key is appended. -/
def objInsert (obj : List (String × String)) (k v : String) :
    List (String × String) :=
  if obj.any (fun p => p.1 = k) then
    obj.map (fun p => if p.1 = k then (k, v) else p)
  else obj ++ [(k, v)]

/-- JavaScript object property read `obj[k]` on an association list. -/
def assocFind (m : List (String × String)) (k : String) : Option String :=
  (m.find? (fun p => p.1 = k)).map (fun p => p.2)

/-- The character scanner of `parseCSV` (script.js lines 112-131): a single
left-to-right pass over the input maintaining the accumulated rows, the
current row, the current field and the `inQuotes` flag.  The `[]` case is the
code after the loop: `row.push(field); if (row.length > 1 || row[0] !== "")
rows.push(row);`. -/
def csvScan : List Char → List (List String) → List String → List Char →
    Bool → List (List String)
  | [], rows, row, field, _ =>
      let r := row ++ [String.mk field]
      if 1 < r.length ∨ (r.head?.getD "") ≠ "" then rows ++ [r] else rows
  | c :: rest, rows, row, field, true =>
      if c = '"' then
        match rest with
        | '"' :: rest2 => csvScan rest2 rows row (field ++ ['"']) true
        | [] => csvScan [] rows row field false
        | c2 :: rest2 => csvScan (c2 :: rest2) rows row field false
      else csvScan rest rows row (field ++ [c]) true
  | c :: rest, rows, row, field, false =>
      if c = '"' then csvScan rest rows row field true
      else if c = ',' then csvScan rest rows (row ++ [String.mk field]) [] false
      else if c = '\r' then
        match rest with
        | '\n' :: rest2 =>
            csvScan rest2 (rows ++ [row ++ [String.mk field]]) [] [] false
        | [] => csvScan [] (rows ++ [row ++ [String.mk field]]) [] [] false
        | c2 :: rest2 =>
            csvScan (c2 :: rest2) (rows ++ [row ++ [String.mk field]]) [] [] false
      else if c = '\n' then
        csvScan rest (rows ++ [row ++ [String.mk field]]) [] [] false
      else csvScan rest rows row (field ++ [c]) false

/-- Variant of `csvScan` that always pushes the final flushed row, with no
degenerate-row test; used to characterize which rows `csvScan` keeps. -/
def csvScanAll : List Char → List (List String) → List String → List Char →
    Bool → List (List String)
  | [], rows, row, field, _ => rows ++ [row ++ [String.mk field]]
  | c :: rest, rows, row, field, true =>
      if c = '"' then
        match rest with
        | '"' :: rest2 => csvScanAll rest2 rows row (field ++ ['"']) true
        | [] => csvScanAll [] rows row field false
        | c2 :: rest2 => csvScanAll (c2 :: rest2) rows row field false
      else csvScanAll rest rows row (field ++ [c]) true
  | c :: rest, rows, row, field, false =>
      if c = '"' then csvScanAll rest rows row field true
      else if c = ',' then csvScanAll rest rows (row ++ [String.mk field]) [] false
      else if c = '\r' then
        match rest with
        | '\n' :: rest2 =>
            csvScanAll rest2 (rows ++ [row ++ [String.mk field]]) [] [] false
        | [] => csvScanAll [] (rows ++ [row ++ [String.mk field]]) [] [] false
        | c2 :: rest2 =>
            csvScanAll (c2 :: rest2) (rows ++ [row ++ [String.mk field]]) [] [] false
      else if c = '\n' then
        csvScanAll rest (rows ++ [row ++ [String.mk field]]) [] [] false
      else csvScanAll rest rows row (field ++ [c]) false

/-- A raw record: one spreadsheet row as an ordered header-to-value map. -/
abbrev RawRecord := List (String × String)

/-- `parseCSV` (script.js lines 105-140): scan the text into rows, treat the
first row as (trimmed) headers, and zip each later row into a record object;
missing trailing fields become the empty string. -/
def parseCSV (csv : String) : List RawRecord :=
  let rows := csvScan csv.toList [] [] [] false
  match rows with
  | [] => []
  | headers :: dataRows =>
      let hs := headers.map (fun h => jsTrim h)
      dataRows.map (fun r =>
        (List.range hs.length).foldl
          (fun obj i => objInsert obj (hs.getD i "") (r.getD i "")) [])

/-- The `FIELD_MAP` configuration (script.js lines 18-29): candidate column
headers per logical field, in priority order. -/
def FIELD_MAP : String → List String
  | "id" => ["id", "uid", "slug", "competition_id"]
  | "title" => ["Comp name"]
  | "date" => ["Date"]
  | "type" => ["Comp format (scoring type)", "Comp format"]
  | "overview" => ["Comp Summary", "Comp Description"]
  | "details" => ["Comp Description", "Comp Summary"]
  | "link" => ["link", "url", "website", "info_url"]
  | _ => []

/-- The lowercase-keyed mirror built by `buildLc` (script.js lines 145-151):
`for (const k in rec) m[k.toLowerCase()] = rec[k]` over the record's
insertion-ordered properties. -/
def lcMapOf (fields : RawRecord) : List (String × String) :=
  fields.foldl (fun m p => objInsert m (jsToLower p.1) p.2) []

/-- The candidate loop of `getField`: return the first candidate header whose
lowercase-keyed value is present and non-empty, else the empty string. -/
def lookupCandidates (lc : List (String × String)) : List String → String
  | [] => ""
  | name :: rest =>
      match assocFind lc (jsToLower name) with
      | some v => if v ≠ "" then v else lookupCandidates lc rest
      | none => lookupCandidates lc rest

/-- `getField` (script.js lines 152-160), value semantics: resolve a logical
field through `FIELD_MAP` over the record's lowercase mirror. -/
def getField (rec : RawRecord) (key : String) : String :=
  lookupCandidates (lcMapOf rec) (FIELD_MAP key)

/-- `getByHeader` (script.js lines 162-166), value semantics: direct
case-insensitive lookup by literal header text. -/
def getByHeader (rec : RawRecord) (header : String) : String :=
  if header = "" then ""
  else (assocFind (lcMapOf rec) (jsToLower header)).getD ""

/-- Character class of `makeSlug`'s regex `[^a-z0-9]` complement, applied
after lowercasing. -/
def isSlugChar (c : Char) : Bool :=
  ('a' ≤ c && c ≤ 'z') || ('0' ≤ c && c ≤ '9')

/-- Collapse runs of hyphens to a single hyphen, modelling the global
replacement of every `[^a-z0-9]+` run by one `-`. -/
def collapseDashes : List Char → List Char
  | [] => []
  | [c] => [c]
  | c :: d :: rest =>
      if c = '-' ∧ d = '-' then collapseDashes (d :: rest)
      else c :: collapseDashes (d :: rest)

/-- Remove a single leading hyphen, modelling one `^-` regex removal. -/
def dropOneLeadingHyphen : List Char → List Char
  | '-' :: rest => rest
  | l => l

/-- `makeSlug` (script.js lines 171-173): lowercase, replace non-alphanumeric
runs by `-`, strip one leading and one trailing hyphen, cap at 80 characters,
default `"item"`. -/
def makeSlug (s : String) : String :=
  let s0 := if s = "" then "item" else s
  let mapped := (jsToLower s0).toList.map (fun c => if isSlugChar c then c else '-')
  let core := collapseDashes mapped
  let trimmed := (dropOneLeadingHyphen ((dropOneLeadingHyphen core).reverse)).reverse
  let sliced := String.mk (trimmed.take 80)
  if sliced = "" then "item" else sliced

/-- The canonical view built by `normalizeRecord`. -/
structure CanonicalRecord where
  id : String
  title : String
  date : String
  type : String
  overview : String
  link : String
deriving Repr, DecidableEq

/-- `normalizeRecord` (script.js lines 174-183). -/
def normalizeRecord (rec : RawRecord) : CanonicalRecord :=
  let gid := getField rec "id"
  let gtitle := getField rec "title"
  { id := if gid ≠ "" then gid
      else makeSlug (if gtitle ≠ "" then gtitle else "competition")
    title := if gtitle ≠ "" then gtitle else "Untitled competition"
    date := getField rec "date"
    type := getField rec "type"
    overview := getField rec "overview"
    link := getField rec "link" }

/-- Inner loop of the Levenshtein dynamic program (script.js lines 188-198):
compute row `i` of the table from row `i-1` (`up :: prest` is the remaining
previous row, `diag` is `dp[i-1][j-1]`, `left` is `dp[i][j-1]`). -/
def levRowGo (ai : Char) : List Char → List Nat → Nat → Nat → List Nat
  | [], _, _, _ => []
  | _ :: _, [], _, _ => []
  | bj :: bs, up :: prest, diag, left =>
      let cur := min (up + 1) (min (left + 1)
        (diag + (if ai = bj then 0 else 1)))
      cur :: levRowGo ai bs prest up cur

/-- Row iteration of the Levenshtein dynamic program: fold the rows for the
characters of `a` over the initial row `0, 1, ..., |b|`. -/
def levRows (bl : List Char) : List Char → List Nat → Nat → List Nat
  | [], prev, _ => prev
  | ai :: arest, prev, i =>
      let next :=
        match prev with
        | [] => []
        | d :: rest => (i + 1) :: levRowGo ai bl rest d (i + 1)
      levRows bl arest next (i + 1)

/-- `levenshtein` (script.js lines 188-198): case-insensitive edit distance
via the classic dynamic program; the result is the last entry of the final
row.  (Named with a `JS` suffix because Mathlib already claims
`levenshtein`.) -/
def levenshteinJS (a b : String) : Nat :=
  let al := (jsToLower a).toList
  let bl := (jsToLower b).toList
  let row0 := List.range (bl.length + 1)
  (levRows bl al row0 0).getLastD 0

/-- The character class of `text.split(/[^a-z0-9]+/i)`: ASCII letters and
digits stay inside chunks, everything else separates. -/
def isTextAlnum (c : Char) : Bool :=
  ('a' ≤ c && c ≤ 'z') || ('A' ≤ c && c ≤ 'Z') || ('0' ≤ c && c ≤ '9')

/-- The chunk list scanned by `scoreRecord`'s fallback; empty chunks are kept
here and skipped by the loop, exactly as the code's `if (!c) continue`. -/
def chunksOf (text : String) : List String :=
  splitStr text (fun c => !(isTextAlnum c))

/-- `Object.values(rec).join(" ")` as evaluated on script.js line 202: the
preceding line `const n = normalizeRecord(rec)` has already run `getField`
and hence `buildLc`, which installs the hidden cache `rec.__lc = m`, an own
enumerable property appended after the spreadsheet fields.  `Object.values`
therefore ends with the cache object, which `join` stringifies as
`[object Object]`. -/
def joinValuesSpace (rec : RawRecord) : String :=
  String.intercalate " " (rec.map (fun p => p.2) ++ ["[object Object]"])

/-- The concatenated searchable text of `scoreRecord` (script.js line 202). -/
def searchText (rec : RawRecord) : String :=
  let n := normalizeRecord rec
  jsToLower (n.title ++ " " ++ n.type ++ " " ++ n.overview ++ " "
    ++ joinValuesSpace rec)

/-- The token list of `scoreRecord` (script.js line 203):
`q.toLowerCase().trim().split(/\s+/).filter(Boolean)`. -/
def queryTokens (q : String) : List String :=
  (splitStr (jsTrim (jsToLower q)) (fun c => c.isWhitespace)).filter
    (fun t => t ≠ "")

/-- The chunk loop of `scoreRecord` (script.js line 211), with `none` playing
the role of the initial `Infinity`; empty chunks are skipped and a strictly
smaller distance replaces the accumulator. -/
def bestChunkGo (t : String) : List String → Option Nat → Option Nat
  | [], best => best
  | c :: cs, best =>
      if c = "" then bestChunkGo t cs best
      else
        let d := levenshteinJS t c
        match best with
        | none => bestChunkGo t cs (some d)
        | some b => bestChunkGo t cs (if d < b then some d else some b)

/-- The minimal chunk distance computed by `scoreRecord`'s fallback loop. -/
def bestChunkDist (t : String) (chunks : List String) : Option Nat :=
  bestChunkGo t chunks none

/-- Points awarded for an approximate match: `if (best === 1) score += 2;
else if (best === 2) score += 1;` (script.js line 212). -/
def fuzzyPoints : Option Nat → Nat
  | some 1 => 2
  | some 2 => 1
  | _ => 0

/-- The token loop of `scoreRecord` (script.js lines 205-214), accumulating
`(score, anyExact)`. -/
def scoreLoop (text : String) : List String → Nat × Bool → Nat × Bool
  | [], st => st
  | t :: ts, st =>
      let st2 :=
        if strContains text t then (st.1 + 3, true)
        else (st.1 + fuzzyPoints (bestChunkDist t (chunksOf text)), st.2)
      scoreLoop text ts st2

/-- The result of `scoreRecord`. -/
structure ScoreResult where
  score : Nat
  fuzzy : Bool
deriving Repr, DecidableEq

/-- `scoreRecord` (script.js lines 199-216). -/
def scoreRecord (rec : RawRecord) (q : String) : ScoreResult :=
  let text := searchText rec
  let tokens := queryTokens q
  if tokens.isEmpty then ⟨0, false⟩
  else
    let st := scoreLoop text tokens (0, false)
    ⟨st.1, !st.2 && decide (0 < st.1)⟩

/-- The exact-mode branch of `applyFilters` (script.js lines 427-428): keep
records some field value of which contains the trimmed lowercased query. -/
def applyFiltersExact (recs : List RawRecord) (query : String) :
    List RawRecord :=
  let q := jsToLower (jsTrim query)
  recs.filter (fun r => r.any (fun p => strContains (jsToLower p.2) q))

/-- The fuzzy-mode branch of `applyFilters` (script.js lines 429-433): score
every record, keep positive scores, stable-sort by descending score, and
pair each record with its fuzzy-only flag. -/
def applyFiltersFuzzy (recs : List RawRecord) (query : String) :
    List (RawRecord × Bool) :=
  let q := jsToLower (jsTrim query)
  let scored := (recs.map (fun rec => (rec, scoreRecord rec q))).filter
    (fun x => 0 < x.2.score)
  let sorted := scored.mergeSort (fun a b => b.2.score ≤ a.2.score)
  sorted.map (fun x => (x.1, x.2.fuzzy))

/-- A JavaScript `Date` at local midnight, represented by the count of days
since 1970-01-01 (comparison of zeroed `Date`s equals comparison of these
day numbers). -/
structure JsDate where
  days : Int
deriving Repr, DecidableEq

/-- Day number of a civil calendar date for months 1..12 (standard
days-from-civil computation over the proleptic Gregorian calendar). -/
def daysFromCivil (y m d : Int) : Int :=
  let y2 := if m ≤ 2 then y - 1 else y
  let era := Int.fdiv y2 400
  let yoe := y2 - era * 400
  let mp := Int.emod (m + 9) 12
  let doy := Int.fdiv (153 * mp + 2) 5 + d - 1
  let doe := yoe * 365 + Int.fdiv yoe 4 - Int.fdiv yoe 100 + doy
  era * 146097 + doe - 719468

/-- Modelled browser builtin `new Date(y, m0, d)` zeroed to midnight:
two-digit years map to 1900+y, the zero-based month overflows into the year,
and the day offsets from the first of the month. -/
def jsMakeDate (y m0 d : Int) : JsDate :=
  let y2 := if 0 ≤ y ∧ y ≤ 99 then y + 1900 else y
  let yAdj := y2 + Int.fdiv m0 12
  let mAdj := Int.emod m0 12 + 1
  ⟨daysFromCivil yAdj mAdj 1 + (d - 1)⟩

/-- Numeric value of a digit string. -/
def digitsToNat (l : List Char) : Nat :=
  l.foldl (fun acc c => acc * 10 + (c.toNat - 48)) 0

/-- The regex `^(\d{4})-(\d{2})-(\d{2})$` of `parseCompetitionDate`
(script.js line 335), returning year, month, day. -/
def parseIsoDate (s : String) : Option (Int × Int × Int) :=
  match s.toList with
  | [a, b, c, d, '-', e, f, '-', g, h] =>
      if ([a, b, c, d, e, f, g, h].all Char.isDigit) then
        some (Int.ofNat (digitsToNat [a, b, c, d]),
          Int.ofNat (digitsToNat [e, f]), Int.ofNat (digitsToNat [g, h]))
      else none
  | _ => none

/-- The regex `^(\d{1,2})\/(\d{1,2})\/(\d{4})$` of `parseCompetitionDate`
(script.js line 338), returning day, month, year. -/
def parseUkDate (s : String) : Option (Int × Int × Int) :=
  match splitStr s (fun c => c = '/') with
  | [ds, ms, ys] =>
      if (1 ≤ ds.length ∧ ds.length ≤ 2 ∧ ds.toList.all Char.isDigit)
          ∧ (1 ≤ ms.length ∧ ms.length ≤ 2 ∧ ms.toList.all Char.isDigit)
          ∧ (ys.length = 4 ∧ ys.toList.all Char.isDigit) then
        some (Int.ofNat (digitsToNat ds.toList),
          Int.ofNat (digitsToNat ms.toList), Int.ofNat (digitsToNat ys.toList))
      else none
  | _ => none

/-- `s.split(/[T\s]/)[0]`: the input up to the first `T` or whitespace. -/
def dateOnlyOf (s : String) : String :=
  String.mk (s.toList.takeWhile (fun c => !(c = 'T' || c.isWhitespace)))

/-- `parseCompetitionDate` (script.js lines 330-344).  The generic
`new Date(string)` fallback is a browser builtin outside the repository, so
it is taken as a parameter; the repository's own ISO and UK paths are
embedded in full. -/
def parseCompetitionDate (builtin : String → Option JsDate)
    (dateStr : String) : Option JsDate :=
  if dateStr = "" then none
  else
    let s := jsTrim dateStr
    let dOnly := dateOnlyOf s
    match parseIsoDate dOnly with
    | some (y, mo, d) => some (jsMakeDate y (mo - 1) d)
    | none =>
        match parseUkDate dOnly with
        | some (d, mo, y) => some (jsMakeDate y (mo - 1) d)
        | none => builtin s

/-- `isPastDate` (script.js lines 345-349) with the zeroed current date as a
parameter: a null date is never past, otherwise compare against today. -/
def isPastDate (today : JsDate) (eventDate : Option JsDate) : Bool :=
  match eventDate with
  | none => false
  | some d => d.days < today.days

/-!
A DOM node as produced by the browser's HTML parser: an element with its
tag, attribute list and children, a text node, or a comment node.  A mutual
forest type is used so that recursion over child lists stays structural.
-/

mutual
/-- A single DOM node. -/
inductive DomNode where
  | element (tag : String) (attrs : List (String × String))
      (children : DomForest)
  | text (s : String)
  | comment (s : String)
deriving DecidableEq, Repr
/-- A list of sibling DOM nodes. -/
inductive DomForest where
  | nil
  | cons (n : DomNode) (rest : DomForest)
deriving DecidableEq, Repr
end

/-- Build a forest from a list of nodes. -/
def DomForest.ofList : List DomNode → DomForest
  | [] => DomForest.nil
  | n :: rest => DomForest.cons n (DomForest.ofList rest)

/-- Concatenation of forests (the effect of `insertBefore` splicing). -/
def DomForest.append : DomForest → DomForest → DomForest
  | DomForest.nil, g => g
  | DomForest.cons n rest, g => DomForest.cons n (DomForest.append rest g)

/-- The sanitizer's tag allow-list (script.js line 238). -/
def ALLOWED_TAGS : List String :=
  ["P", "BR", "B", "I", "EM", "STRONG", "A", "SPAN"]

/-- `getAttribute`: the first attribute with the given name. -/
def getAttr (attrs : List (String × String)) (name : String) : Option String :=
  (attrs.find? (fun p => p.1 = name)).map (fun p => p.2)

/-- `sanitizeClassValue` (script.js lines 243-246): keep whitespace-delimited
tokens of 1 to 64 characters drawn from `[A-Za-z0-9_-]`, joined by single
spaces. -/
def classTokenOk (t : String) : Bool :=
  1 ≤ t.length && t.length ≤ 64 && t.toList.all (fun c =>
    ('A' ≤ c && c ≤ 'Z') || ('a' ≤ c && c ≤ 'z') || ('0' ≤ c && c ≤ '9')
      || c = '_' || c = '-')

/-- String form of `sanitizeClassValue`. -/
def sanitizeClassValue (raw : String) : String :=
  String.intercalate " "
    (((splitStr raw (fun c => c.isWhitespace)).filter (fun t => t ≠ "")).filter
      classTokenOk)

/-- Scheme of a URL string: a leading `[A-Za-z][A-Za-z0-9+.-]*` before a
colon, if any. -/
def urlScheme (url : String) : Option String :=
  match url.toList with
  | [] => none
  | c :: rest =>
      if c.isAlpha then
        let body := (c :: rest).takeWhile (fun d =>
          d.isAlpha || d.isDigit || d = '+' || d = '.' || d = '-')
        match (c :: rest).drop body.length with
        | ':' :: _ => some (String.mk body)
        | _ => none
      else none

/-- Modelled browser builtin `isSafeHttpUrl` (script.js lines 239-242):
`new URL(url, window.location.origin)` resolves scheme-less URLs against the
page's http(s) origin, so a URL is accepted exactly when its explicit scheme
is `http` or `https`, or it has no scheme at all. -/
def isSafeHttpUrl (url : String) : Bool :=
  match urlScheme url with
  | some s => jsToLower s = "http" || jsToLower s = "https"
  | none => true

/-- The recursive child-sanitizing pass of `sanitizeBasicHTML` (script.js
lines 260-294).  The JavaScript iterates a snapshot `[...node.childNodes]`;
when a disallowed element (or an `<a>` without a safe href) is unwrapped, its
children are spliced into the live child list at that point but are not part
of the snapshot, so they are returned unsanitized (`DomForest.append cs ...`)
while the callback `return`s to the next snapshot entry. -/
def sanitizeChildren : DomForest → DomForest
  | DomForest.nil => DomForest.nil
  | DomForest.cons (DomNode.comment _) rest => sanitizeChildren rest
  | DomForest.cons (DomNode.text s) rest =>
      DomForest.cons (DomNode.text s) (sanitizeChildren rest)
  | DomForest.cons (DomNode.element tag attrs cs) rest =>
      let tagU := jsToUpper tag
      if tagU ∈ ALLOWED_TAGS then
        let rawClass := (getAttr attrs "class").getD ""
        let cleanClass := sanitizeClassValue rawClass
        if tagU = "A" then
          let href := (getAttr attrs "href").getD ""
          if isSafeHttpUrl href then
            let newAttrs := [("href", href), ("target", "_blank"),
              ("rel", "noopener noreferrer")]
              ++ (if cleanClass ≠ "" then [("class", cleanClass)] else [])
            DomForest.cons (DomNode.element tag newAttrs (sanitizeChildren cs))
              (sanitizeChildren rest)
          else DomForest.append cs (sanitizeChildren rest)
        else
          let newAttrs :=
            if cleanClass ≠ "" then [("class", cleanClass)] else []
          DomForest.cons (DomNode.element tag newAttrs (sanitizeChildren cs))
            (sanitizeChildren rest)
      else DomForest.append cs (sanitizeChildren rest)

/-- Does any node of the forest carry the given (uppercased) tag? -/
def nodesContainTag (tag : String) : DomForest → Bool
  | DomForest.nil => false
  | DomForest.cons (DomNode.element t _ cs) rest =>
      jsToUpper t = tag || nodesContainTag tag cs || nodesContainTag tag rest
  | DomForest.cons _ rest => nodesContainTag tag rest

/-- Does any element of the forest carry an attribute with the given name? -/
def nodesContainAttr (name : String) : DomForest → Bool
  | DomForest.nil => false
  | DomForest.cons (DomNode.element _ attrs cs) rest =>
      attrs.any (fun p => p.1 = name) || nodesContainAttr name cs
        || nodesContainAttr name rest
  | DomForest.cons _ rest => nodesContainAttr name rest

/-- Tokens of `highlightHTML` (script.js line 300):
`query.toLowerCase().split(/\s+/).filter(Boolean)` — note: no trim. -/
def hlTokens (query : String) : List String :=
  (splitStr (jsToLower query) (fun c => c.isWhitespace)).filter
    (fun t => t ≠ "")

/-- Case-insensitive match of an (already lowercased) token at the head of a
character list; fails when fewer characters remain than the token needs. -/
def tokenMatchAt (t : String) (cs : List Char) : Bool :=
  decide ((cs.take t.length).map Char.toLower = t.toList)

/-- The first alternative of the combined regex that matches at this
position, i.e. the first token in query order. -/
def firstTokenMatch (tokens : List String) (cs : List Char) : Option String :=
  tokens.find? (fun t => t ≠ "" && tokenMatchAt t cs)

/-- A piece of a scanned text node: an unmatched chunk, or a chunk wrapped in
a `<mark>` element. -/
inductive Piece where
  | raw (s : List Char)
  | marked (s : List Char)
deriving DecidableEq, Repr

/-- Prepend an unmatched character, merging into a leading raw piece so that
gaps between matches form single text nodes as in the replace loop. -/
def consRaw (c : Char) : List Piece → List Piece
  | Piece.raw s :: rest => Piece.raw (c :: s) :: rest
  | ps => Piece.raw [c] :: ps

/-- The global-regex scan of one text node (script.js lines 311-321): at each
position the first matching token is wrapped and scanning resumes after it,
otherwise the scan advances one character.  The fuel argument (instantiated
with the text length) only makes the recursion structural: each step consumes
at least one character because matched tokens are non-empty. -/
def hlScanFuel (tokens : List String) : Nat → List Char → List Piece
  | 0, _ => []
  | _ + 1, [] => []
  | fuel + 1, c :: rest =>
      match firstTokenMatch tokens (c :: rest) with
      | some t =>
          Piece.marked ((c :: rest).take t.length)
            :: hlScanFuel tokens fuel ((c :: rest).drop t.length)
      | none => consRaw c (hlScanFuel tokens fuel rest)

/-- Scan of a whole text node value. -/
def hlScan (tokens : List String) (cs : List Char) : List Piece :=
  hlScanFuel tokens cs.length cs

/-- Turn scan pieces back into DOM nodes: raw pieces become text nodes,
marked pieces become `<mark>` elements holding a text node. -/
def piecesToForest : List Piece → DomForest
  | [] => DomForest.nil
  | Piece.raw s :: rest =>
      DomForest.cons (DomNode.text (String.mk s)) (piecesToForest rest)
  | Piece.marked s :: rest =>
      DomForest.cons
        (DomNode.element "MARK" []
          (DomForest.cons (DomNode.text (String.mk s)) DomForest.nil))
        (piecesToForest rest)

/-- The tree walk of `highlightHTML` (script.js lines 307-323): all text
nodes are collected and each is replaced by its scanned pieces; elements keep
their tag and attributes, comments are untouched. -/
def highlightForest (tokens : List String) : DomForest → DomForest
  | DomForest.nil => DomForest.nil
  | DomForest.cons (DomNode.element tag attrs cs) rest =>
      DomForest.cons (DomNode.element tag attrs (highlightForest tokens cs))
        (highlightForest tokens rest)
  | DomForest.cons (DomNode.text s) rest =>
      DomForest.append (piecesToForest (hlScan tokens s.toList))
        (highlightForest tokens rest)
  | DomForest.cons (DomNode.comment s) rest =>
      DomForest.cons (DomNode.comment s) (highlightForest tokens rest)

/-- `highlightHTML` (script.js lines 298-325) at the DOM level: unchanged
input for an empty or whitespace-only query, otherwise the token walk. -/
def highlightHTML (nodes : DomForest) (query : String) : DomForest :=
  if jsTrim query = "" then nodes
  else
    let tokens := hlTokens query
    if tokens = [] then nodes
    else highlightForest tokens nodes

/-!
Observers used to state what the highlighter does and does not touch.
-/

mutual
/-- Concatenated text content of a node. -/
def textContentN : DomNode → String
  | DomNode.element _ _ cs => textContentF cs
  | DomNode.text s => s
  | DomNode.comment _ => ""
/-- Concatenated text content of a forest. -/
def textContentF : DomForest → String
  | DomForest.nil => ""
  | DomForest.cons n rest => textContentN n ++ textContentF rest
end

mutual
/-- All attribute values appearing in a node. -/
def attrValuesN : DomNode → List String
  | DomNode.element _ attrs cs => attrs.map (fun p => p.2) ++ attrValuesF cs
  | _ => []
/-- All attribute values appearing in a forest. -/
def attrValuesF : DomForest → List String
  | DomForest.nil => []
  | DomForest.cons n rest => attrValuesN n ++ attrValuesF rest
end

/-- Concatenated characters of scan pieces. -/
def piecesText : List Piece → List Char
  | [] => []
  | Piece.raw s :: rest => s ++ piecesText rest
  | Piece.marked s :: rest => s ++ piecesText rest

/-- Whether position `i` of the original text falls inside a marked piece. -/
def markedAt : List Piece → Nat → Bool
  | [], _ => false
  | Piece.raw s :: rest, i =>
      if i < s.length then false else markedAt rest (i - s.length)
  | Piece.marked s :: rest, i =>
      if i < s.length then true else markedAt rest (i - s.length)

/-- The token `t` (already lowercase) occurs case-insensitively at position
`i` of `cs`. -/
def occursAt (t : String) (cs : List Char) (i : Nat) : Prop :=
  ((cs.drop i).take t.length).map Char.toLower = t.toList

/-- A record as a live JavaScript object: its spreadsheet fields plus the
hidden `__lc` cache property that `buildLc` may have installed. -/
structure RecObj where
  fields : List (String × String)
  lc : Option (List (String × String))
deriving Repr, DecidableEq

/-- The enumerable property names of the record object, `__lc` included once
the cache exists. -/
def RecObj.keys (r : RecObj) : List String :=
  r.fields.map (fun p => p.1) ++ (match r.lc with
    | some _ => ["__lc"]
    | none => [])

/-- `buildLc` (script.js lines 145-151): return the cached mirror if present,
else build it and store it on the record (`rec.__lc = m`). -/
def buildLc (r : RecObj) : List (String × String) × RecObj :=
  match r.lc with
  | some m => (m, r)
  | none =>
      let m := lcMapOf r.fields
      (m, { r with lc := some m })

/-- `getField` (script.js lines 152-160) as a state-passing operation on the
live record object. -/
def getFieldS (r : RecObj) (key : String) : String × RecObj :=
  let p := buildLc r
  (lookupCandidates p.1 (FIELD_MAP key), p.2)

/-- `getByHeader` (script.js lines 162-166) as a state-passing operation;
`!header` returns before the cache is built. -/
def getByHeaderS (r : RecObj) (header : String) : String × RecObj :=
  if header = "" then ("", r)
  else
    let p := buildLc r
    ((assocFind p.1 (jsToLower header)).getD "", p.2)

/-- Inside quotes, every character other than `"` is accumulated literally
into the current field: commas and newlines included. -/
theorem csvScan_inQuotes_literal (s : List Char) (h : '"' ∉ s) :
    ∀ cs rows row field, csvScan (s ++ cs) rows row field true
      = csvScan cs rows row (field ++ s) true := by
  induction s with
  | nil => intro cs rows row field; simp
  | cons c s2 ih =>
      intro cs rows row field
      have hc : ¬(c = '"') := by
        intro hcc; exact h (hcc ▸ List.mem_cons_self c s2)
      have hs2 : '"' ∉ s2 := fun hm => h (List.mem_cons_of_mem _ hm)
      show csvScan (c :: (s2 ++ cs)) rows row field true = _
      rw [csvScan.eq_def]
      simp [hc, ih hs2]

/-- Inside quotes, the two-character sequence `""` is accumulated as one
literal `"` character. -/
theorem csvScan_escaped_quote (cs : List Char) (rows : List (List String))
    (row : List String) (field : List Char) :
    csvScan ('"' :: '"' :: cs) rows row field true
      = csvScan cs rows row (field ++ ['"']) true := rfl

/-- Scanner step: outside quotes, an ordinary character is accumulated into
the current field. -/
theorem csvScan_step_plain (c : Char) (rest : List Char)
    (rows : List (List String)) (row : List String) (field : List Char)
    (h1 : ¬c = '"') (h2 : ¬c = ',') (h3 : ¬c = '\r') (h4 : ¬c = '\n') :
    csvScan (c :: rest) rows row field false
      = csvScan rest rows row (field ++ [c]) false := by
  rw [csvScan.eq_def]; simp [h1, h2, h3, h4]

/-- Scanner step: outside quotes, a newline flushes the current row. -/
theorem csvScan_step_newline (rest : List Char) (rows : List (List String))
    (row : List String) (field : List Char) :
    csvScan ('\n' :: rest) rows row field false
      = csvScan rest (rows ++ [row ++ [String.mk field]]) [] [] false := by
  rw [csvScan.eq_def]; simp

/-- Scanner step: outside quotes, a double quote enters quoted mode. -/
theorem csvScan_step_quote_open (rest : List Char) (rows : List (List String))
    (row : List String) (field : List Char) :
    csvScan ('"' :: rest) rows row field false
      = csvScan rest rows row field true := by
  rw [csvScan.eq_def]; simp

/-- A nonempty character list never packs to the empty string. -/
theorem stringMk_ne_empty (c : Char) (l r : List Char) :
    String.mk (l ++ c :: r) ≠ "" := by
  simp [String.ext_iff]

/-- C4: `parseCSV` on the scenario input keeps the comma inside the quoted
field, and in general a quoted field parses its body literally with `""`
decoded to a single `"`: for any quote-free chunks `s1`, `s2` (commas and
newlines allowed), the single-column document `h\n"<s1>""<s2>"` yields one
record mapping header `h` to `s1 ++ '"' :: s2`. -/
theorem c4_parseCSV_quoted_field (s1 s2 : List Char)
    (h1 : '"' ∉ s1) (h2 : '"' ∉ s2) :
    parseCSV "Comp name,Date\n\"Spring, Open\",2024-01-10\n"
      = [[("Comp name", "Spring, Open"), ("Date", "2024-01-10")]] ∧
    parseCSV (String.mk ('h' :: '\n' :: '"' :: (s1 ++ ('"' :: '"' :: (s2 ++ ['"'])))))
      = [[("h", String.mk (s1 ++ ('"' :: s2)))]] := by
  refine ⟨by decide, ?_⟩
  have hrows : csvScan ('h' :: '\n' :: '"' :: (s1 ++ ('"' :: '"' :: (s2 ++ ['"']))))
      [] [] [] false = [["h"], [String.mk (s1 ++ ('"' :: s2))]] := by
    rw [csvScan_step_plain 'h' _ _ _ _ (by decide) (by decide) (by decide)
      (by decide), csvScan_step_newline, csvScan_step_quote_open,
      csvScan_inQuotes_literal s1 h1, csvScan_escaped_quote,
      csvScan_inQuotes_literal s2 h2]
    rw [csvScan.eq_def]
    simp only [reduceIte]
    rw [csvScan.eq_def]
    simp [stringMk_ne_empty]
  unfold parseCSV
  simp only [String.toList]
  rw [hrows]
  simp [objInsert, jsTrim, trimList, List.getD, List.range_succ, List.dropWhile]

/-- Witness for C4 at a concrete quoted field whose body contains a comma, a
newline and an escaped quote. -/
theorem c4_parseCSV_quoted_field_witness :
    parseCSV "Comp name,Date\n\"Spring, Open\",2024-01-10\n"
      = [[("Comp name", "Spring, Open"), ("Date", "2024-01-10")]] ∧
    parseCSV (String.mk ('h' :: '\n' :: '"' ::
        (['S', ',', '\n', 'p'] ++ ('"' :: '"' :: (['q'] ++ ['"'])))))
      = [[("h", String.mk (['S', ',', '\n', 'p'] ++ ('"' :: ['q'])))]] :=
  c4_parseCSV_quoted_field ['S', ',', '\n', 'p'] ['q'] (by decide) (by decide)

/-- The conditional final-row flush of `csvScan` relates it to the
unconditional scanner `csvScanAll`: the only row ever subjected to the
degenerate-row test is the final flushed one. -/
theorem csvScan_eq_csvScanAll (cs : List Char) (rows : List (List String))
    (row : List String) (field : List Char) (inQ : Bool) :
    csvScan cs rows row field inQ =
      (if 1 < ((csvScanAll cs rows row field inQ).getLastD []).length ∨
          (((csvScanAll cs rows row field inQ).getLastD []).head?.getD "") ≠ ""
        then csvScanAll cs rows row field inQ
        else (csvScanAll cs rows row field inQ).dropLast) := by
  induction cs, rows, row, field, inQ using csvScan.induct
  all_goals rw [csvScan.eq_def, csvScanAll.eq_def]
  all_goals simp_all [List.getLastD_concat, List.dropLast_concat]

/-- C6 counterexample: a blank line in the middle of the input is kept as a
row and yields a record (here the all-empty first record), so it is not true
that every degenerate row anywhere in the input is dropped. -/
theorem c6_blank_interior_line_yields_record :
    parseCSV "a\n\nb\n" = [[("a", "")], [("a", "b")]] ∧
    (parseCSV "a\n\nb\n").length = 2 := by
  refine ⟨by decide, by decide⟩

/-- C6 (amended): `parseCSV`'s degenerate-row test applies only to the final
flushed row: for every input, the scanned rows equal the unconditionally
scanned rows except that the last row is dropped exactly when it is a single
empty field (such as one produced by a trailing separator); a final row with
two or more fields or a single non-empty field is kept, and rows terminated
by a newline — blank interior lines included — are always kept. -/
theorem c6_degenerate_test_only_final_row (csv : String) :
    csvScan csv.toList [] [] [] false =
      (if 1 < ((csvScanAll csv.toList [] [] [] false).getLastD []).length ∨
          (((csvScanAll csv.toList [] [] [] false).getLastD []).head?.getD "")
            ≠ ""
        then csvScanAll csv.toList [] [] [] false
        else (csvScanAll csv.toList [] [] [] false).dropLast) :=
  csvScan_eq_csvScanAll csv.toList [] [] [] false

/-- Decoding a valid code point round-trips through `Char.ofNat`. -/
theorem char_toNat_ofNat_valid (n : Nat) (h : n.isValidChar) :
    (Char.ofNat n).toNat = n := by
  unfold Char.ofNat
  rw [dif_pos h]
  unfold Char.ofNatAux
  simp [Char.toNat, UInt32.toNat]

/-- Characters are equal exactly when their code points are. -/
theorem char_eq_iff_toNat (a b : Char) : a = b ↔ a.toNat = b.toNat := by
  constructor
  · intro h; rw [h]
  · intro h; exact Char.ext (UInt32.ext h)

/-- ASCII lowercasing is idempotent. -/
theorem char_toLower_toLower (c : Char) : c.toLower.toLower = c.toLower := by
  unfold Char.toLower
  by_cases h : c.toNat ≥ 65 ∧ c.toNat ≤ 90
  · simp only [if_pos h]
    have hv : (c.toNat + 32).isValidChar := Or.inl (by omega)
    rw [char_toNat_ofNat_valid _ hv, if_neg (by omega)]
  · simp only [if_neg h]

/-- ASCII lowercasing does not create or destroy whitespace. -/
theorem char_isWhitespace_toLower (c : Char) :
    c.toLower.isWhitespace = c.isWhitespace := by
  unfold Char.toLower
  by_cases h : c.toNat ≥ 65 ∧ c.toNat ≤ 90
  · simp only [if_pos h]
    have hv : (c.toNat + 32).isValidChar := Or.inl (by omega)
    have ht := char_toNat_ofNat_valid _ hv
    simp only [Char.isWhitespace, char_eq_iff_toNat, ht]
    have h32 : (' ' : Char).toNat = 32 := by decide
    have h9 : ('\t' : Char).toNat = 9 := by decide
    have h13 : ('\r' : Char).toNat = 13 := by decide
    have h10 : ('\n' : Char).toNat = 10 := by decide
    rw [h32, h9, h13, h10]
    have hl : (decide (c.toNat + 32 = 32) || decide (c.toNat + 32 = 9)
        || decide (c.toNat + 32 = 13) || decide (c.toNat + 32 = 10)) = false := by
      simp only [Bool.or_eq_false_iff, decide_eq_false_iff_not]
      omega
    have hr : (decide (c.toNat = 32) || decide (c.toNat = 9)
        || decide (c.toNat = 13) || decide (c.toNat = 10)) = false := by
      simp only [Bool.or_eq_false_iff, decide_eq_false_iff_not]
      omega
    rw [hl, hr]
  · simp only [if_neg h]

/-- The first element surviving `dropWhile p` fails `p`. -/
theorem head_dropWhile_not (p : Char → Bool) (l : List Char) :
    ∀ c, (l.dropWhile p).head? = some c → p c = false := by
  induction l with
  | nil => intro c h; simp [List.dropWhile] at h
  | cons a t ih =>
      intro c h
      rw [List.dropWhile_cons] at h
      by_cases hp : p a
      · rw [if_pos hp] at h; exact ih c h
      · rw [if_neg hp] at h
        simp at h
        rw [← h]
        simpa using hp

/-- A list whose head fails `p` is unchanged by `dropWhile p`. -/
theorem dropWhile_eq_self_of_head (p : Char → Bool) (l : List Char)
    (h : ∀ c, l.head? = some c → p c = false) : l.dropWhile p = l := by
  cases l with
  | nil => rfl
  | cons a t =>
      rw [List.dropWhile_cons, if_neg]
      simp [h a rfl]

/-- The first element of a trimmed list is not whitespace. -/
theorem trimList_head_not_ws (l : List Char) (c : Char)
    (h : (trimList l).head? = some c) : c.isWhitespace = false := by
  unfold trimList at h
  rw [List.head?_reverse] at h
  have hBne : (l.dropWhile Char.isWhitespace).reverse.dropWhile
      Char.isWhitespace ≠ [] := by
    intro he; rw [he] at h; simp at h
  obtain ⟨t, ht⟩ := List.dropWhile_suffix
    (l := (l.dropWhile Char.isWhitespace).reverse) Char.isWhitespace
  have hlast : ((l.dropWhile Char.isWhitespace).reverse).getLast? = some c := by
    rw [← ht, List.getLast?_append_of_ne_nil _ hBne]
    exact h
  rw [List.getLast?_reverse] at hlast
  exact head_dropWhile_not Char.isWhitespace l c hlast

/-- Trimming is idempotent. -/
theorem trimList_trimList (l : List Char) : trimList (trimList l) = trimList l := by
  conv_lhs => rw [trimList]
  rw [dropWhile_eq_self_of_head Char.isWhitespace (trimList l)
    (fun c h => trimList_head_not_ws l c h)]
  rw [show (trimList l).reverse
      = (l.dropWhile Char.isWhitespace).reverse.dropWhile Char.isWhitespace from by
    unfold trimList; rw [List.reverse_reverse]]
  rw [List.dropWhile_idempotent]
  rfl

/-- Trimming commutes with ASCII lowercasing. -/
theorem trimList_map_toLower (l : List Char) :
    trimList (l.map Char.toLower) = (trimList l).map Char.toLower := by
  have hws : (Char.isWhitespace ∘ Char.toLower) = Char.isWhitespace := by
    funext c; exact char_isWhitespace_toLower c
  simp [trimList, List.dropWhile_map, hws, ← List.map_reverse]

/-- Lowercasing a character list is idempotent. -/
theorem map_toLower_toLower (l : List Char) :
    (l.map Char.toLower).map Char.toLower = l.map Char.toLower := by
  rw [List.map_map]
  have : (Char.toLower ∘ Char.toLower) = Char.toLower := by
    funext c; exact char_toLower_toLower c
  rw [this]

/-- Splitting commutes with mapping a character function that preserves the
separator class. -/
theorem splitPred_map (p : Char → Bool) (f : Char → Char)
    (hp : ∀ c, p (f c) = p c) (l : List Char) :
    splitPred p (l.map f) = (splitPred p l).map (List.map f) := by
  induction l with
  | nil => simp [splitPred]
  | cons c rest ih =>
      show splitPred p (f c :: rest.map f) = _
      rw [splitPred, hp c, splitPred]
      by_cases hc : p c
      · rw [if_pos hc, if_pos hc, ih]
        simp
      · rw [if_neg hc, if_neg hc, ih]
        cases hs : splitPred p rest with
        | nil => simp
        | cons s ss => simp

/-- The token list of `scoreRecord` is unchanged when the query has already
been trimmed and lowercased once, as `applyFilters` does before scoring. -/
theorem queryTokens_lower_trim (q : String) :
    queryTokens (jsToLower (jsTrim q)) = queryTokens q := by
  unfold queryTokens splitStr jsTrim jsToLower
  have h1 : trimList (((trimList q.data).map Char.toLower).map Char.toLower)
      = trimList (q.data.map Char.toLower) := by
    rw [map_toLower_toLower, trimList_map_toLower, trimList_trimList,
      ← trimList_map_toLower]
  simp only [String.toList]
  rw [h1]

/-- Approximate-match points never exceed 2. -/
theorem fuzzyPoints_le_two (m : Option Nat) : fuzzyPoints m ≤ 2 := by
  rcases m with _ | (_ | _ | (_ | k)) <;> simp [fuzzyPoints]

/-- A minimum distance that is neither 1 nor 2 awards no points. -/
theorem fuzzyPoints_eq_zero (m : Option Nat) (h1 : m ≠ some 1)
    (h2 : m ≠ some 2) : fuzzyPoints m = 0 := by
  rcases m with _ | (_ | _ | (_ | k)) <;> simp_all [fuzzyPoints]

/-- Chunk-loop invariant: if every non-empty chunk is at distance other than
1 and 2 from the token, the accumulated minimum is never 1 or 2. -/
theorem bestChunkGo_avoid (t : String) (cs : List String)
    (h : ∀ c ∈ cs, c ≠ "" → levenshteinJS t c ≠ 1 ∧ levenshteinJS t c ≠ 2) :
    ∀ acc, (∀ m, acc = some m → m ≠ 1 ∧ m ≠ 2) →
      ∀ n, bestChunkGo t cs acc = some n → n ≠ 1 ∧ n ≠ 2 := by
  induction cs with
  | nil => intro acc hacc n hn; exact hacc n hn
  | cons c cs ih =>
      intro acc hacc n hn
      have hcs : ∀ c2 ∈ cs, c2 ≠ "" →
          levenshteinJS t c2 ≠ 1 ∧ levenshteinJS t c2 ≠ 2 :=
        fun c2 hm => h c2 (List.mem_cons_of_mem _ hm)
      simp only [bestChunkGo] at hn
      by_cases hc : c = ""
      · rw [if_pos hc] at hn
        exact ih hcs acc hacc n hn
      · rw [if_neg hc] at hn
        have hcd := h c (List.mem_cons_self _ _) hc
        cases acc with
        | none =>
            refine ih hcs (some (levenshteinJS t c)) ?_ n hn
            intro m hm
            injection hm with hm
            rw [← hm]
            exact hcd
        | some b =>
            refine ih hcs _ ?_ n hn
            intro m hm
            by_cases hd : levenshteinJS t c < b
            · rw [if_pos hd] at hm
              injection hm with hm
              rw [← hm]
              exact hcd
            · rw [if_neg hd] at hm
              injection hm with hm
              rw [← hm]
              exact hacc b rfl

/-- If every token of the list contributes nothing, the score loop leaves the
accumulator unchanged. -/
theorem scoreLoop_unchanged (text : String) (ts : List String)
    (h : ∀ t ∈ ts, strContains text t = false ∧
      bestChunkDist t (chunksOf text) ≠ some 1 ∧
      bestChunkDist t (chunksOf text) ≠ some 2) :
    ∀ st, scoreLoop text ts st = st := by
  induction ts with
  | nil => intro st; rfl
  | cons t ts ih =>
      intro st
      obtain ⟨hc, h1, h2⟩ := h t (List.mem_cons_self _ _)
      have hrest := fun t2 hm => h t2 (List.mem_cons_of_mem _ hm)
      simp only [scoreLoop, hc, Bool.false_eq_true, if_false,
        fuzzyPoints_eq_zero _ h1 h2, Nat.add_zero]
      exact ih hrest st

/-- If every token occurs exactly, the loop adds 3 points per token. -/
theorem scoreLoop_all_exact (text : String) (ts : List String)
    (h : ∀ t ∈ ts, strContains text t = true) :
    ∀ st, (scoreLoop text ts st).1 = st.1 + 3 * ts.length := by
  induction ts with
  | nil => intro st; simp [scoreLoop]
  | cons t ts ih =>
      intro st
      have hrest := fun t2 hm => h t2 (List.mem_cons_of_mem _ hm)
      simp only [scoreLoop, h t (List.mem_cons_self _ _), if_true]
      rw [ih hrest]
      simp
      ring

/-- If no token occurs exactly, the loop adds at most 2 points per token. -/
theorem scoreLoop_no_exact_le (text : String) (ts : List String)
    (h : ∀ t ∈ ts, strContains text t = false) :
    ∀ st, (scoreLoop text ts st).1 ≤ st.1 + 2 * ts.length := by
  induction ts with
  | nil => intro st; simp [scoreLoop]
  | cons t ts ih =>
      intro st
      have hrest := fun t2 hm => h t2 (List.mem_cons_of_mem _ hm)
      simp only [scoreLoop, h t (List.mem_cons_self _ _), Bool.false_eq_true,
        if_false]
      calc (scoreLoop text ts
          (st.1 + fuzzyPoints (bestChunkDist t (chunksOf text)), st.2)).1
          ≤ st.1 + fuzzyPoints (bestChunkDist t (chunksOf text))
            + 2 * ts.length := ih hrest _
        _ ≤ st.1 + 2 + 2 * ts.length := by
            have := fuzzyPoints_le_two (bestChunkDist t (chunksOf text))
            omega
        _ = st.1 + 2 * (t :: ts).length := by simp; ring

/-- The `anyExact` flag is true exactly when some token hit an exact
substring match. -/
theorem scoreLoop_anyExact (text : String) (ts : List String) :
    ∀ st, (scoreLoop text ts st).2
      = (st.2 || ts.any (fun t => strContains text t)) := by
  induction ts with
  | nil => intro st; simp [scoreLoop]
  | cons t ts ih =>
      intro st
      by_cases hc : strContains text t
      · simp only [scoreLoop, hc, if_true, List.any_cons]
        rw [ih]
        simp [hc]
      · simp only [scoreLoop, hc, Bool.false_eq_true, if_false, List.any_cons]
        rw [ih]
        simp [hc]

/-- C2: in exact mode, for every batch and every query non-empty after
trimming, a record is kept by `applyFilters` if and only if some field value,
lowercased, contains the whole trimmed lowercased query as a substring; kept
records form a sublist of the batch (original order, no scoring). -/
theorem c2_exact_mode_filter (recs : List RawRecord) (query : String)
    (hq : jsTrim query ≠ "") :
    (applyFiltersExact recs query).Sublist recs ∧
    ∀ r, r ∈ applyFiltersExact recs query ↔
      r ∈ recs ∧ ∃ v ∈ r.map Prod.snd,
        (jsToLower (jsTrim query)).toList <:+: (jsToLower v).toList := by
  constructor
  · exact List.filter_sublist recs
  · intro r
    unfold applyFiltersExact
    rw [List.mem_filter]
    simp only [List.any_eq_true, strContains, decide_eq_true_eq, List.mem_map]
    constructor
    · rintro ⟨hm, p, hp, hinf⟩
      exact ⟨hm, p.2, ⟨p, hp, rfl⟩, hinf⟩
    · rintro ⟨hm, v, ⟨p, hp, rfl⟩, hinf⟩
      exact ⟨hm, p, hp, hinf⟩

/-- Witness for C2 on a concrete two-record batch: the matching record is
kept, the other dropped. -/
theorem c2_exact_mode_filter_witness :
    (applyFiltersExact
        [[("Comp name", "Spring Open")], [("Comp name", "Autumn Cup")]]
        " Spring ").Sublist
      [[("Comp name", "Spring Open")], [("Comp name", "Autumn Cup")]] ∧
    ∀ r, r ∈ applyFiltersExact
        [[("Comp name", "Spring Open")], [("Comp name", "Autumn Cup")]]
        " Spring " ↔
      r ∈ [[("Comp name", "Spring Open")], [("Comp name", "Autumn Cup")]] ∧
      ∃ v ∈ r.map Prod.snd,
        (jsToLower (jsTrim " Spring ")).toList <:+: (jsToLower v).toList :=
  c2_exact_mode_filter
    [[("Comp name", "Spring Open")], [("Comp name", "Autumn Cup")]]
    " Spring " (by decide)

/-- C3: a record none of whose query tokens matches exactly or within edit
distance 2 of any chunk scores 0 and never appears in the fuzzy results. -/
theorem c3_unmatched_tokens_excluded (rec : RawRecord) (q : String)
    (h : ∀ t ∈ queryTokens q,
      strContains (searchText rec) t = false ∧
      ∀ c ∈ chunksOf (searchText rec), c ≠ "" →
        levenshteinJS t c ≠ 1 ∧ levenshteinJS t c ≠ 2) :
    (scoreRecord rec q).score = 0 ∧
    ∀ recs x, x ∈ applyFiltersFuzzy recs q → x.1 ≠ rec := by
  have htok : ∀ q2, queryTokens q2 = queryTokens q →
      (scoreRecord rec q2).score = 0 := by
    intro q2 hq2
    unfold scoreRecord
    rw [hq2]
    by_cases he : (queryTokens q).isEmpty
    · simp [he]
    · simp only [he, Bool.false_eq_true, if_false]
      have hb : ∀ t ∈ queryTokens q,
          strContains (searchText rec) t = false ∧
          bestChunkDist t (chunksOf (searchText rec)) ≠ some 1 ∧
          bestChunkDist t (chunksOf (searchText rec)) ≠ some 2 := by
        intro t ht
        have hav := bestChunkGo_avoid t (chunksOf (searchText rec))
          (h t ht).2 none (by intro m hm; cases hm)
        exact ⟨(h t ht).1,
          fun hc => (hav 1 hc).1 rfl,
          fun hc => (hav 2 hc).2 rfl⟩
      rw [scoreLoop_unchanged (searchText rec) (queryTokens q) hb (0, false)]
  refine ⟨htok q rfl, ?_⟩
  intro recs x hx hxr
  unfold applyFiltersFuzzy at hx
  simp only [List.mem_map] at hx
  obtain ⟨y, hy, hyx⟩ := hx
  rw [List.mem_mergeSort, List.mem_filter] at hy
  obtain ⟨hy1, hy2⟩ := hy
  simp only [List.mem_map] at hy1
  obtain ⟨r0, hr0, hr0y⟩ := hy1
  have hr0rec : r0 = rec := by
    have h1 : y.1 = r0 := by rw [← hr0y]
    have h2 : x.1 = y.1 := by rw [← hyx]
    rw [← h1, ← h2, hxr]
  have hscore : y.2 = scoreRecord rec (jsToLower (jsTrim q)) := by
    rw [← hr0y, hr0rec]
  have hz := htok (jsToLower (jsTrim q)) (queryTokens_lower_trim q)
  rw [hscore] at hy2
  simp only [hz, decide_eq_true_eq] at hy2
  omega

/-- Witness for C3: the query "qqqqqqq" matches nothing in a one-field
record — neither exactly nor within edit distance 2 of any chunk, the
"object" chunks of the `__lc` artifact included — so the score is 0 and the
fuzzy results exclude the record. -/
theorem c3_unmatched_tokens_excluded_witness :
    (scoreRecord [("Comp name", "Spring Open")] "qqqqqqq").score = 0 ∧
    ∀ recs x, x ∈ applyFiltersFuzzy recs "qqqqqqq" →
      x.1 ≠ [("Comp name", "Spring Open")] :=
  c3_unmatched_tokens_excluded [("Comp name", "Spring Open")] "qqqqqqq"
    (by decide)

/-- C7: with at least one query token, a record whose text contains every
token exactly strictly out-scores a record in which those tokens only match
approximately (minimum chunk distance 1 or 2). -/
theorem c7_exact_beats_fuzzy (recA recB : RawRecord) (q : String)
    (hne : queryTokens q ≠ [])
    (hA : ∀ t ∈ queryTokens q, strContains (searchText recA) t = true)
    (hB : ∀ t ∈ queryTokens q, strContains (searchText recB) t = false ∧
      (bestChunkDist t (chunksOf (searchText recB)) = some 1 ∨
        bestChunkDist t (chunksOf (searchText recB)) = some 2)) :
    (scoreRecord recB q).score < (scoreRecord recA q).score := by
  have hni : (queryTokens q).isEmpty = false := by
    cases hq : queryTokens q with
    | nil => exact absurd hq hne
    | cons a l => simp
  unfold scoreRecord
  simp only [hni, Bool.false_eq_true, if_false]
  have hA3 := scoreLoop_all_exact (searchText recA) (queryTokens q) hA (0, false)
  have hBle := scoreLoop_no_exact_le (searchText recB) (queryTokens q)
    (fun t ht => (hB t ht).1) (0, false)
  have hlen : 1 ≤ (queryTokens q).length := by
    cases hq : queryTokens q with
    | nil => exact absurd hq hne
    | cons a l => simp
  show (scoreLoop (searchText recB) (queryTokens q) (0, false)).1
    < (scoreLoop (searchText recA) (queryTokens q) (0, false)).1
  omega

/-- Witness for C7 on concrete records for the one-token query "medal". -/
theorem c7_exact_beats_fuzzy_witness :
    (scoreRecord [("Comp name", "Sunday Medla")] "medal").score
      < (scoreRecord [("Comp name", "Sunday Medal")] "medal").score :=
  c7_exact_beats_fuzzy [("Comp name", "Sunday Medal")]
    [("Comp name", "Sunday Medla")] "medal" (by decide)
    (by decide) (by decide)

/-- The first segment produced by `splitPred` is an initial segment of the
input list. -/
theorem splitPred_head_front (p : Char → Bool) :
    ∀ l : List Char, ∃ s ss, splitPred p l = s :: ss ∧ s <+: l := by
  intro l
  induction l with
  | nil => exact ⟨[], [], rfl, [], rfl⟩
  | cons c rest ih =>
      by_cases hc : p c
      · exact ⟨[], splitPred p rest, by simp [splitPred, hc],
          c :: rest, rfl⟩
      · obtain ⟨s, ss, hs, t, ht⟩ := ih
        refine ⟨c :: s, ss, ?_, t, ?_⟩
        · simp only [splitPred]
          rw [if_neg hc, hs]
        · simp [ht]

/-- Every segment produced by `splitPred` occurs contiguously inside the
input list. -/
theorem splitPred_mem_within (p : Char → Bool) :
    ∀ (l s : List Char), s ∈ splitPred p l → s <:+: l := by
  intro l
  induction l with
  | nil =>
      intro s hs
      simp only [splitPred, List.mem_singleton] at hs
      exact ⟨[], [], by simp [hs]⟩
  | cons c rest ih =>
      intro s hs
      by_cases hc : p c
      · rw [show splitPred p (c :: rest) = [] :: splitPred p rest from by
          simp [splitPred, hc]] at hs
        rcases List.mem_cons.mp hs with h | h
        · exact ⟨[], c :: rest, by simp [h]⟩
        · obtain ⟨u, v, huv⟩ := ih s h
          exact ⟨c :: u, v, by simp [← huv]⟩
      · obtain ⟨s0, ss0, hs0, t0, ht0⟩ := splitPred_head_front p rest
        rw [show splitPred p (c :: rest) = (c :: s0) :: ss0 from by
          simp only [splitPred]; rw [if_neg hc, hs0]] at hs
        rcases List.mem_cons.mp hs with h | h
        · subst h
          exact ⟨[], t0, by simp [ht0]⟩
        · have hm : s ∈ splitPred p rest := by rw [hs0]; right; exact h
          obtain ⟨u, v, huv⟩ := ih s hm
          exact ⟨c :: u, v, by simp [← huv]⟩

/-- Every chunk scanned by the fuzzy fallback occurs contiguously inside the
searchable text. -/
theorem chunksOf_mem_within (text c : String) (h : c ∈ chunksOf text) :
    c.toList <:+: text.toList := by
  unfold chunksOf splitStr at h
  obtain ⟨l, hl, hlc⟩ := List.mem_map.mp h
  have h2 : c.toList = l := by rw [← hlc]; rfl
  rw [h2]
  exact splitPred_mem_within _ text.toList l hl

/-- The inner Levenshtein row loop produces one entry per consumed pair of a
`b`-character and a previous-row entry. -/
theorem levRowGo_length (ai : Char) :
    ∀ (bs : List Char) (prev : List Nat) (diag left : Nat),
      (levRowGo ai bs prev diag left).length = min bs.length prev.length := by
  intro bs
  induction bs with
  | nil => intro prev diag left; simp [levRowGo]
  | cons bj bs ih =>
      intro prev diag left
      cases prev with
      | nil => simp [levRowGo]
      | cons up prest =>
          simp only [levRowGo, List.length_cons]
          rw [ih]
          omega

/-- Row iteration preserves the row length `|bl| + 1`. -/
theorem levRows_length (bl : List Char) :
    ∀ (arest : List Char) (prev : List Nat) (i : Nat),
      prev.length = bl.length + 1 →
      (levRows bl arest prev i).length = bl.length + 1 := by
  intro arest
  induction arest with
  | nil => intro prev i h; simpa [levRows] using h
  | cons ai arest ih =>
      intro prev i h
      cases prev with
      | nil => simp at h
      | cons d rest =>
          simp only [levRows]
          apply ih
          simp only [List.length_cons, levRowGo_length]
          simp only [List.length_cons] at h
          omega

/-- A zero entry in a freshly computed Levenshtein row certifies prefix
equality: when the previous row's zero entries certify that the already
consumed part `P` of `a` equals the corresponding prefix of `bl`, a zero at
position `j + 1 + k` of the new row certifies `P ++ [ai] = bl.take
(j + 1 + k)`. -/
theorem levRowGo_zero (ai : Char) (P bl : List Char) :
    ∀ (prev : List Nat) (j diag left : Nat),
      (diag = 0 → P = bl.take j) →
      (∀ k, prev.get? k = some 0 → P = bl.take (j + 1 + k)) →
      (left = 0 → P ++ [ai] = bl.take j) →
      ∀ k, (levRowGo ai (bl.drop j) prev diag left).get? k = some 0 →
        P ++ [ai] = bl.take (j + 1 + k) := by
  intro prev
  induction prev with
  | nil =>
      intro j diag left hdiag hprev hleft k hk
      cases hbs : bl.drop j with
      | nil => rw [hbs] at hk; simp [levRowGo] at hk
      | cons bj bs2 => rw [hbs] at hk; simp [levRowGo] at hk
  | cons up prest ih =>
      intro j diag left hdiag hprev hleft k hk
      cases hbs : bl.drop j with
      | nil => rw [hbs] at hk; simp [levRowGo] at hk
      | cons bj bs2 =>
          rw [hbs] at hk
          have hgetj : bl[j]? = some bj := by
            have h1 : (bl.drop j)[0]? = some bj := by rw [hbs]; simp
            rwa [List.getElem?_drop, Nat.add_zero] at h1
          have htake : bl.take (j + 1) = bl.take j ++ [bj] := by
            rw [List.take_succ, hgetj]
            rfl
          have hdrop : bl.drop (j + 1) = bs2 := by
            have h1 : (bl.drop j).drop 1 = bs2 := by rw [hbs]; rfl
            rwa [List.drop_drop] at h1
          have hstep : levRowGo ai (bj :: bs2) (up :: prest) diag left
              = (min (up + 1) (min (left + 1)
                  (diag + (if ai = bj then 0 else 1))))
                :: levRowGo ai bs2 prest up
                  (min (up + 1) (min (left + 1)
                    (diag + (if ai = bj then 0 else 1)))) := rfl
          obtain ⟨cur, hcurdef⟩ : ∃ cur, min (up + 1) (min (left + 1)
              (diag + (if ai = bj then 0 else 1))) = cur := ⟨_, rfl⟩
          rw [hstep, hcurdef] at hk
          have hcur0 : cur = 0 → P ++ [ai] = bl.take (j + 1) := by
            intro h0
            by_cases hab : ai = bj
            · have hd0 : diag = 0 := by
                rw [if_pos hab] at hcurdef
                omega
              rw [hdiag hd0, hab, htake]
            · rw [if_neg hab] at hcurdef
              exfalso
              omega
          cases k with
          | zero =>
              rw [List.get?_cons_zero] at hk
              injection hk with hk0
              simpa using hcur0 hk0
          | succ k2 =>
              rw [List.get?_cons_succ] at hk
              rw [← hdrop] at hk
              have hdiag2 : up = 0 → P = bl.take (j + 1) := by
                intro h0
                have h1 := hprev 0 (by rw [List.get?_cons_zero, h0])
                simpa using h1
              have hprev2 : ∀ k3, prest.get? k3 = some 0 →
                  P = bl.take (j + 1 + 1 + k3) := by
                intro k3 hk3
                have h1 := hprev (k3 + 1) (by rwa [List.get?_cons_succ])
                rwa [show j + 1 + (k3 + 1) = j + 1 + 1 + k3 from by omega]
                  at h1
              have h1 := ih (j + 1) up cur hdiag2 hprev2 hcur0 k2 hk
              rwa [show j + 1 + 1 + k2 = j + 1 + (k2 + 1) from by omega]
                at h1

/-- A zero entry of the final Levenshtein row certifies that the whole of
`a` equals the corresponding prefix of `bl`. -/
theorem levRows_zero (bl : List Char) :
    ∀ (arest : List Char) (P : List Char) (prev : List Nat) (i : Nat),
      (∀ k, prev.get? k = some 0 → P = bl.take k) →
      ∀ k, (levRows bl arest prev i).get? k = some 0 →
        P ++ arest = bl.take k := by
  intro arest
  induction arest with
  | nil =>
      intro P prev i hrow k hk
      simp only [levRows] at hk
      simpa using hrow k hk
  | cons ai arest2 ih =>
      intro P prev i hrow k hk
      simp only [levRows] at hk
      cases prev with
      | nil =>
          have h1 := ih (P ++ [ai]) [] (i + 1)
            (fun k2 hk2 => by simp at hk2) k hk
          simpa using h1
      | cons d rest =>
          have hrow2 : ∀ k2,
              ((i + 1) :: levRowGo ai bl rest d (i + 1)).get? k2 = some 0 →
              P ++ [ai] = bl.take k2 := by
            intro k2 hk2
            cases k2 with
            | zero =>
                rw [List.get?_cons_zero] at hk2
                injection hk2 with hk2
                omega
            | succ k3 =>
                rw [List.get?_cons_succ] at hk2
                rw [show bl = bl.drop 0 from (List.drop_zero bl).symm] at hk2
                have hdiag : d = 0 → P = bl.take 0 := by
                  intro h0
                  have h1 := hrow 0 (by rw [List.get?_cons_zero, h0])
                  simpa using h1
                have hprev : ∀ k4, rest.get? k4 = some 0 →
                    P = bl.take (0 + 1 + k4) := by
                  intro k4 hk4
                  have h1 := hrow (k4 + 1) (by rwa [List.get?_cons_succ])
                  rwa [show k4 + 1 = 0 + 1 + k4 from by omega] at h1
                have h1 := levRowGo_zero ai P bl rest 0 d (i + 1) hdiag hprev
                  (fun h0 => absurd h0 (Nat.succ_ne_zero i)) k3 hk2
                rwa [show 0 + 1 + k3 = k3 + 1 from by omega] at h1
          have h1 := ih (P ++ [ai]) _ (i + 1) hrow2 k hk
          simpa using h1

/-- A Levenshtein distance of zero certifies equality of the lowercased
character lists. -/
theorem levenshteinJS_eq_zero_lower (a b : String)
    (h : levenshteinJS a b = 0) :
    (jsToLower a).toList = (jsToLower b).toList := by
  have hmain : ∀ row : List Nat,
      levRows (jsToLower b).toList (jsToLower a).toList
        (List.range ((jsToLower b).toList.length + 1)) 0 = row →
      row.getLastD 0 = 0 →
      (jsToLower a).toList = (jsToLower b).toList := by
    intro row hrow hzero
    have hlen : row.length = (jsToLower b).toList.length + 1 := by
      rw [← hrow]
      exact levRows_length _ _ _ 0 (by simp)
    have hlast : row.get? (jsToLower b).toList.length = some 0 := by
      cases hv : row.get? (jsToLower b).toList.length with
      | none =>
          rw [List.get?_eq_none] at hv
          omega
      | some v =>
          have h1 : row.getLastD 0 = v := by
            rw [List.getLastD_eq_getLast?, List.getLast?_eq_get?, hlen]
            simp only [Nat.add_sub_cancel]
            rw [hv]
            rfl
          rw [hzero] at h1
          rw [← h1]
    have hrow0 : ∀ k,
        (List.range ((jsToLower b).toList.length + 1)).get? k = some 0 →
        ([] : List Char) = (jsToLower b).toList.take k := by
      intro k hk
      by_cases hlt : k < (jsToLower b).toList.length + 1
      · rw [List.get?_range hlt] at hk
        injection hk with hk
        subst hk
        simp
      · rw [List.get?_eq_none.mpr
          (by simpa using Nat.le_of_not_lt hlt)] at hk
        cases hk
    have hfin := levRows_zero (jsToLower b).toList (jsToLower a).toList []
      (List.range ((jsToLower b).toList.length + 1)) 0 hrow0
      (jsToLower b).toList.length (by rw [hrow]; exact hlast)
    simpa only [List.nil_append, List.take_length] using hfin
  apply hmain _ rfl
  simpa [levenshteinJS] using h

/-- The chunk loop never returns more than the accumulator it starts from. -/
theorem bestChunkGo_mono (t : String) (cs : List String) :
    ∀ m : Nat, ∃ b, bestChunkGo t cs (some m) = some b ∧ b ≤ m := by
  induction cs with
  | nil => intro m; exact ⟨m, rfl, Nat.le_refl m⟩
  | cons c cs ih =>
      intro m
      by_cases hc : c = ""
      · obtain ⟨b, hb, hle⟩ := ih m
        exact ⟨b, by simpa [bestChunkGo, hc] using hb, hle⟩
      · by_cases hd : levenshteinJS t c < m
        · obtain ⟨b, hb, hle⟩ := ih (levenshteinJS t c)
          exact ⟨b, by simpa [bestChunkGo, hc, hd] using hb, by omega⟩
        · obtain ⟨b, hb, hle⟩ := ih m
          exact ⟨b, by simpa [bestChunkGo, hc, hd] using hb, hle⟩

/-- A non-empty member chunk bounds the chunk loop's result: the loop
returns a minimum no larger than that chunk's distance. -/
theorem bestChunkGo_le (t c : String) :
    ∀ (cs : List String), c ∈ cs → c ≠ "" → ∀ acc,
      ∃ b, bestChunkGo t cs acc = some b ∧ b ≤ levenshteinJS t c := by
  intro cs
  induction cs with
  | nil => intro h; cases h
  | cons c0 cs ih =>
      intro hmem hne acc
      rcases List.mem_cons.mp hmem with heq | hmem2
      · subst heq
        cases acc with
        | none =>
            obtain ⟨b, hb, hle⟩ := bestChunkGo_mono t cs (levenshteinJS t c)
            exact ⟨b, by simpa [bestChunkGo, hne] using hb, hle⟩
        | some b0 =>
            by_cases hd : levenshteinJS t c < b0
            · obtain ⟨b, hb, hle⟩ :=
                bestChunkGo_mono t cs (levenshteinJS t c)
              exact ⟨b, by simpa [bestChunkGo, hne, hd] using hb, hle⟩
            · obtain ⟨b, hb, hle⟩ := bestChunkGo_mono t cs b0
              exact ⟨b, by simpa [bestChunkGo, hne, hd] using hb, by omega⟩
      · by_cases hc0 : c0 = ""
        · obtain ⟨b, hb, hle⟩ := ih hmem2 hne acc
          exact ⟨b, by simpa [bestChunkGo, hc0] using hb, hle⟩
        · cases acc with
          | none =>
              obtain ⟨b, hb, hle⟩ := ih hmem2 hne
                (some (levenshteinJS t c0))
              exact ⟨b, by simpa [bestChunkGo, hc0] using hb, hle⟩
          | some b0 =>
              obtain ⟨b, hb, hle⟩ := ih hmem2 hne
                (if levenshteinJS t c0 < b0 then some (levenshteinJS t c0)
                  else some b0)
              exact ⟨b, by simpa [bestChunkGo, hc0] using hb, hle⟩

/-- Chunk-loop invariant: if no non-empty chunk is at distance 0 from the
token, the accumulated minimum is never 0. -/
theorem bestChunkGo_ne_zero (t : String) (cs : List String)
    (h : ∀ c ∈ cs, c ≠ "" → levenshteinJS t c ≠ 0) :
    ∀ acc, (∀ m, acc = some m → m ≠ 0) →
      ∀ n, bestChunkGo t cs acc = some n → n ≠ 0 := by
  induction cs with
  | nil => intro acc hacc n hn; exact hacc n hn
  | cons c cs ih =>
      intro acc hacc n hn
      have hcs : ∀ c2 ∈ cs, c2 ≠ "" → levenshteinJS t c2 ≠ 0 :=
        fun c2 hm => h c2 (List.mem_cons_of_mem _ hm)
      simp only [bestChunkGo] at hn
      by_cases hc : c = ""
      · rw [if_pos hc] at hn
        exact ih hcs acc hacc n hn
      · rw [if_neg hc] at hn
        have hcd := h c (List.mem_cons_self _ _) hc
        cases acc with
        | none =>
            refine ih hcs (some (levenshteinJS t c)) ?_ n hn
            intro m hm
            injection hm with hm
            rw [← hm]
            exact hcd
        | some b =>
            refine ih hcs _ ?_ n hn
            intro m hm
            by_cases hd : levenshteinJS t c < b
            · rw [if_pos hd] at hm
              injection hm with hm
              rw [← hm]
              exact hcd
            · rw [if_neg hd] at hm
              injection hm with hm
              rw [← hm]
              exact hacc b rfl

/-- Characters drawn from a lowercased string are fixed points of
`Char.toLower`; hence any contiguous piece of such a string is its own
lowercasing. -/
theorem map_toLower_fixed_of_within (s : String) (l : List Char)
    (h : l <:+: (jsToLower s).toList) : l.map Char.toLower = l := by
  have hfix : ∀ c ∈ l, Char.toLower c = c := by
    intro c hc
    obtain ⟨u, v, huv⟩ := h
    have hc2 : c ∈ s.toList.map Char.toLower := by
      have hm : c ∈ u ++ (l ++ v) := by simp [hc]
      rw [← List.append_assoc, huv] at hm
      exact hm
    obtain ⟨c0, _, hc0⟩ := List.mem_map.mp hc2
    rw [← hc0]
    exact char_toLower_toLower c0
  have h1 : l.map Char.toLower = l.map id := List.map_congr_left hfix
  rw [h1, List.map_id]

set_option maxRecDepth 16384

/-- C8 counterexample: a record whose searchable text contains
"handicap limit: 28" only inside the longer alphanumeric run "ahandicap"
meets the claim's hypothesis (the text contains the phrase and has no exact
occurrence of "hanicap"), yet the best chunk distance for "hanicap" is 2,
not 1, so the score of 1 is not obtained via an edit-distance-1 match; with
"zzzzhandicap" the score even drops to 0 and the record is not fuzzy-only at
all. -/
theorem c8_substring_weaker_than_chunk :
    strContains (searchText [("Comp Summary", "ahandicap limit: 28")])
      "handicap limit: 28" = true ∧
    strContains (searchText [("Comp Summary", "ahandicap limit: 28")])
      "hanicap" = false ∧
    bestChunkDist "hanicap"
      (chunksOf (searchText [("Comp Summary", "ahandicap limit: 28")]))
      = some 2 ∧
    scoreRecord [("Comp Summary", "ahandicap limit: 28")] "hanicap"
      = ⟨1, true⟩ ∧
    strContains (searchText [("Comp Summary", "zzzzhandicap limit: 28")])
      "handicap limit: 28" = true ∧
    strContains (searchText [("Comp Summary", "zzzzhandicap limit: 28")])
      "hanicap" = false ∧
    scoreRecord [("Comp Summary", "zzzzhandicap limit: 28")] "hanicap"
      = ⟨0, false⟩ := by
  exact ⟨by decide, by decide, by decide, by decide, by decide, by decide,
    by decide⟩

/-- C8 (amended): the query "hanicap" against any record whose searchable
text carries "handicap" as a complete alphanumeric chunk — as a field value
"Handicap Limit: 28" produces — but contains no exact occurrence of
"hanicap", scores exactly 2 through a best chunk distance of 1, an
edit-distance-1 approximate match rather than an exact substring hit, and
the record is flagged fuzzy-only; in general the fuzzy flag is true exactly
when the score is positive and no query token occurred exactly in the
searchable text. -/
theorem c8_hanicap_fuzzy_only (rec : RawRecord)
    (hch : "handicap" ∈ chunksOf (searchText rec))
    (hno : strContains (searchText rec) "hanicap" = false) :
    bestChunkDist "hanicap" (chunksOf (searchText rec)) = some 1 ∧
    scoreRecord rec "hanicap" = ⟨2, true⟩ ∧
    ∀ rec2 q2, (scoreRecord rec2 q2).fuzzy = true ↔
      (0 < (scoreRecord rec2 q2).score ∧
        ∀ t ∈ queryTokens q2, strContains (searchText rec2) t = false) := by
  have hne : ("handicap" : String) ≠ "" := by decide
  have hlev1 : levenshteinJS "hanicap" "handicap" = 1 := by decide
  obtain ⟨b, hb, hble⟩ :=
    bestChunkGo_le "hanicap" "handicap" (chunksOf (searchText rec)) hch hne
      none
  have hnz : ∀ c ∈ chunksOf (searchText rec), c ≠ "" →
      levenshteinJS "hanicap" c ≠ 0 := by
    intro c hc hcne h0
    have hinf := chunksOf_mem_within (searchText rec) c hc
    have hlow : (jsToLower "hanicap").toList = (jsToLower c).toList :=
      levenshteinJS_eq_zero_lower _ _ h0
    have hfix : c.toList.map Char.toLower = c.toList := by
      have hinf2 : c.toList <:+: (jsToLower (
          let n := normalizeRecord rec
          n.title ++ " " ++ n.type ++ " " ++ n.overview ++ " "
            ++ joinValuesSpace rec)).toList := hinf
      exact map_toLower_fixed_of_within _ _ hinf2
    have hc7 : c.toList = ("hanicap" : String).toList := by
      have h2 : ("hanicap" : String).toList.map Char.toLower
          = c.toList.map Char.toLower := hlow
      rw [hfix] at h2
      rw [show ("hanicap" : String).toList.map Char.toLower
        = ("hanicap" : String).toList from by decide] at h2
      exact h2.symm
    have hcon : strContains (searchText rec) "hanicap" = true := by
      simp only [strContains, decide_eq_true_eq]
      rw [← hc7]
      exact hinf
    rw [hcon] at hno
    cases hno
  have hb0 : b ≠ 0 :=
    bestChunkGo_ne_zero "hanicap" (chunksOf (searchText rec)) hnz none
      (fun m hm => by cases hm) b hb
  have hb1 : b = 1 := by
    rw [hlev1] at hble
    omega
  have hbest : bestChunkDist "hanicap" (chunksOf (searchText rec))
      = some 1 := by
    unfold bestChunkDist
    rw [hb, hb1]
  refine ⟨hbest, ?_, ?_⟩
  · have htok : queryTokens "hanicap" = ["hanicap"] := by decide
    unfold scoreRecord
    rw [htok]
    simp only [List.isEmpty_cons, Bool.false_eq_true, if_false]
    simp only [scoreLoop, hno, Bool.false_eq_true, if_false, hbest]
    simp [fuzzyPoints]
  · intro rec2 q2
    unfold scoreRecord
    by_cases he : (queryTokens q2).isEmpty
    · simp [he]
    · simp only [he, Bool.false_eq_true, if_false]
      rw [scoreLoop_anyExact (searchText rec2) (queryTokens q2) (0, false)]
      simp only [Bool.false_or, Bool.and_eq_true, Bool.not_eq_true',
        decide_eq_true_eq, List.any_eq_false]
      constructor
      · rintro ⟨hall, hpos⟩
        exact ⟨hpos, fun t ht => by simpa using hall t ht⟩
      · rintro ⟨hpos, hall⟩
        exact ⟨by simpa using hall, hpos⟩

/-- Witness for C8 at the scenario record: the lone field value
"Handicap Limit: 28" makes "handicap" a chunk of the searchable text, with
no exact occurrence of "hanicap". -/
theorem c8_hanicap_fuzzy_only_witness :
    bestChunkDist "hanicap"
      (chunksOf (searchText [("Comp Summary", "Handicap Limit: 28")]))
      = some 1 ∧
    scoreRecord [("Comp Summary", "Handicap Limit: 28")] "hanicap"
      = ⟨2, true⟩ ∧
    ∀ rec2 q2, (scoreRecord rec2 q2).fuzzy = true ↔
      (0 < (scoreRecord rec2 q2).score ∧
        ∀ t ∈ queryTokens q2, strContains (searchText rec2) t = false) :=
  c8_hanicap_fuzzy_only [("Comp Summary", "Handicap Limit: 28")]
    (by decide) (by decide)

/-- C9: the ISO inputs parse to the expected calendar dates at midnight,
"not-a-date" falls through to the (failing) generic parse and yields null,
and a date is classified past exactly when it is strictly earlier than the
zeroed current date (2024-06-15 in the scenario); null is never past. -/
theorem c9_date_past_classification (builtin : String → Option JsDate)
    (hb : builtin "not-a-date" = none) :
    parseCompetitionDate builtin "2024-06-14" = some (jsMakeDate 2024 5 14) ∧
    parseCompetitionDate builtin "2024-06-16" = some (jsMakeDate 2024 5 16) ∧
    (jsMakeDate 2024 5 14).days = 19888 ∧
    (jsMakeDate 2024 5 15).days = 19889 ∧
    (jsMakeDate 2024 5 16).days = 19890 ∧
    parseCompetitionDate builtin "not-a-date" = none ∧
    isPastDate (jsMakeDate 2024 5 15)
      (parseCompetitionDate builtin "2024-06-14") = true ∧
    isPastDate (jsMakeDate 2024 5 15)
      (parseCompetitionDate builtin "2024-06-16") = false ∧
    isPastDate (jsMakeDate 2024 5 15) none = false ∧
    (∀ today od, isPastDate today od = true ↔
      ∃ d2, od = some d2 ∧ d2.days < today.days) := by
  have hnad : parseCompetitionDate builtin "not-a-date" = none := by
    unfold parseCompetitionDate
    rw [if_neg (by decide)]
    simp only []
    rw [show parseIsoDate (dateOnlyOf (jsTrim "not-a-date")) = none from by
      decide]
    rw [show parseUkDate (dateOnlyOf (jsTrim "not-a-date")) = none from by
      decide]
    rw [show jsTrim "not-a-date" = "not-a-date" from by decide]
    exact hb
  refine ⟨rfl, rfl, by decide, by decide, by decide, hnad, rfl, rfl, rfl, ?_⟩
  intro today od
  cases od with
  | none => simp [isPastDate]
  | some d2 => simp [isPastDate]

/-- Witness for C9 with the trivial always-failing generic parser. -/
theorem c9_date_past_classification_witness :
    parseCompetitionDate (fun _ => none) "2024-06-14"
      = some (jsMakeDate 2024 5 14) ∧
    parseCompetitionDate (fun _ => none) "2024-06-16"
      = some (jsMakeDate 2024 5 16) ∧
    (jsMakeDate 2024 5 14).days = 19888 ∧
    (jsMakeDate 2024 5 15).days = 19889 ∧
    (jsMakeDate 2024 5 16).days = 19890 ∧
    parseCompetitionDate (fun _ => none) "not-a-date" = none ∧
    isPastDate (jsMakeDate 2024 5 15)
      (parseCompetitionDate (fun _ => none) "2024-06-14") = true ∧
    isPastDate (jsMakeDate 2024 5 15)
      (parseCompetitionDate (fun _ => none) "2024-06-16") = false ∧
    isPastDate (jsMakeDate 2024 5 15) none = false ∧
    (∀ today od, isPastDate today od = true ↔
      ∃ d2, od = some d2 ∧ d2.days < today.days) :=
  c9_date_past_classification (fun _ => none) rfl

/-- C1 evaluated at the failing input: the parse tree of
`<div><script>alert(1)</script></div>` sanitizes to the bare `<script>`
element, because the `<div>` is unwrapped and its promoted child is never
visited; likewise an `onerror` attribute nested inside a disallowed element
survives. -/
theorem c1_script_survives_unwrap :
    sanitizeChildren
        (DomForest.ofList [DomNode.element "DIV" []
          (DomForest.ofList
            [DomNode.element "SCRIPT" [] (DomForest.ofList
              [DomNode.text "alert(1)"])])])
      = DomForest.ofList [DomNode.element "SCRIPT" [] (DomForest.ofList
          [DomNode.text "alert(1)"])] ∧
    nodesContainTag "SCRIPT"
      (sanitizeChildren
        (DomForest.ofList [DomNode.element "DIV" []
          (DomForest.ofList
            [DomNode.element "SCRIPT" [] (DomForest.ofList
              [DomNode.text "alert(1)"])])])) = true ∧
    nodesContainAttr "onerror"
      (sanitizeChildren
        (DomForest.ofList [DomNode.element "DIV" []
          (DomForest.ofList
            [DomNode.element "IMG" [("onerror", "alert(1)")]
              (DomForest.ofList [])])])) = true := by
  refine ⟨by decide, by decide, by decide⟩

/-- What a successful alternation match guarantees: the token is one of the
query tokens, non-empty, and matches at the head case-insensitively. -/
theorem firstTokenMatch_some_spec (tokens : List String) (cs : List Char)
    (t : String) (h : firstTokenMatch tokens cs = some t) :
    t ∈ tokens ∧ t ≠ "" ∧ (cs.take t.length).map Char.toLower = t.toList := by
  unfold firstTokenMatch at h
  have hm := List.mem_of_find?_eq_some h
  have hp := List.find?_some h
  simp only [tokenMatchAt, Bool.and_eq_true, decide_eq_true_eq] at hp
  exact ⟨hm, by simpa using hp.1, hp.2⟩

/-- A match at the head fits inside the text. -/
theorem tokenMatch_le_length (t : String) (cs : List Char)
    (h : (cs.take t.length).map Char.toLower = t.toList) :
    t.length ≤ cs.length := by
  have := congrArg List.length h
  simp only [List.length_map, List.length_take] at this
  have ht : t.toList.length = t.length := rfl
  omega

/-- A non-empty token has positive length. -/
theorem string_length_pos_of_ne (t : String) (h : t ≠ "") : 0 < t.length := by
  cases ht : t.toList with
  | nil =>
      exact absurd (by
        have ht2 : t = String.mk t.toList := rfl
        rw [ht2, ht]) h
  | cons a l =>
      have : t.length = t.toList.length := rfl
      rw [this, ht]
      simp

/-- `consRaw` prepends exactly one character to the concatenated text. -/
theorem piecesText_consRaw (c : Char) (ps : List Piece) :
    piecesText (consRaw c ps) = c :: piecesText ps := by
  cases ps with
  | nil => rfl
  | cons p rest => cases p <;> rfl

/-- `consRaw` shifts marked positions by one. -/
theorem markedAt_consRaw (c : Char) (ps : List Piece) (i : Nat) :
    markedAt (consRaw c ps) (i + 1) = markedAt ps i := by
  cases ps with
  | nil => simp [consRaw, markedAt]
  | cons p rest =>
      cases p with
      | raw s =>
          show markedAt (Piece.raw (c :: s) :: rest) (i + 1) = _
          simp only [markedAt, List.length_cons]
          by_cases hi : i < s.length
          · rw [if_pos (by omega), if_pos hi]
          · rw [if_neg (by omega), if_neg hi]
            congr 1
            omega
      | marked s =>
          show markedAt (Piece.raw [c] :: Piece.marked s :: rest) (i + 1) = _
          simp [markedAt]

/-- `consRaw` neither adds nor removes marked pieces. -/
theorem marked_mem_consRaw (c : Char) (ps : List Piece) (s : List Char) :
    Piece.marked s ∈ consRaw c ps ↔ Piece.marked s ∈ ps := by
  cases ps with
  | nil => simp [consRaw]
  | cons p rest => cases p <;> simp [consRaw]

/-- The scan loses no text: concatenating its pieces restores the input. -/
theorem hlScanFuel_text (tokens : List String) :
    ∀ fuel cs, cs.length ≤ fuel →
      piecesText (hlScanFuel tokens fuel cs) = cs := by
  intro fuel
  induction fuel with
  | zero =>
      intro cs h
      have hnil : cs = [] := List.eq_nil_of_length_eq_zero (Nat.le_zero.mp h)
      subst hnil
      rfl
  | succ fuel ih =>
      intro cs h
      cases cs with
      | nil => rfl
      | cons c rest =>
          simp only [hlScanFuel]
          cases hfm : firstTokenMatch tokens (c :: rest) with
          | some t =>
              obtain ⟨_, hne, hmatch⟩ := firstTokenMatch_some_spec _ _ _ hfm
              have hpos := string_length_pos_of_ne t hne
              have hle := tokenMatch_le_length t (c :: rest) hmatch
              have hfuel : ((c :: rest).drop t.length).length ≤ fuel := by
                rw [List.length_drop]
                simp only [List.length_cons] at h hle ⊢
                omega
              simp only [piecesText]
              rw [ih _ hfuel]
              exact List.take_append_drop _ _
          | none =>
              have hfuel : rest.length ≤ fuel := by
                simp only [List.length_cons] at h
                omega
              rw [piecesText_consRaw, ih rest hfuel]

/-- Everything the scan wraps is a case-insensitive occurrence of a token. -/
theorem hlScanFuel_marked (tokens : List String) :
    ∀ fuel cs, ∀ s, Piece.marked s ∈ hlScanFuel tokens fuel cs →
      ∃ t ∈ tokens, s.map Char.toLower = t.toList := by
  intro fuel
  induction fuel with
  | zero => intro cs s hs; simp [hlScanFuel] at hs
  | succ fuel ih =>
      intro cs s hs
      cases cs with
      | nil => simp [hlScanFuel] at hs
      | cons c rest =>
          simp only [hlScanFuel] at hs
          cases hfm : firstTokenMatch tokens (c :: rest) with
          | some t =>
              rw [hfm] at hs
              obtain ⟨hmem, hne, hmatch⟩ := firstTokenMatch_some_spec _ _ _ hfm
              rcases List.mem_cons.mp hs with heq | htail
              · refine ⟨t, hmem, ?_⟩
                injection heq with heq
                rw [heq]
                exact hmatch
              · exact ih _ s htail
          | none =>
              rw [hfm] at hs
              rw [marked_mem_consRaw] at hs
              exact ih _ s hs

/-- An occurrence needs a non-empty suffix, so there are none in "". -/
theorem occursAt_nil_absurd (t : String) (i : Nat) (hne : t ≠ "")
    (hocc : occursAt t ([] : List Char) i) : False := by
  have hpos := string_length_pos_of_ne t hne
  unfold occursAt at hocc
  simp only [List.drop_nil, List.take_nil, List.map_nil] at hocc
  have := congrArg List.length hocc
  simp only [List.length_nil] at this
  have ht : t.toList.length = t.length := rfl
  omega

/-- Every occurrence of every token starts inside some wrapped match: an
occurrence is either wrapped itself or overlaps an earlier wrapped match. -/
theorem hlScanFuel_coverage (tokens : List String) :
    ∀ fuel cs, cs.length ≤ fuel →
      ∀ i t, t ∈ tokens → t ≠ "" → occursAt t cs i →
        markedAt (hlScanFuel tokens fuel cs) i = true := by
  intro fuel
  induction fuel with
  | zero =>
      intro cs h i t hmem hne hocc
      have hnil : cs = [] := List.eq_nil_of_length_eq_zero (Nat.le_zero.mp h)
      subst hnil
      exact absurd hocc (fun hc => occursAt_nil_absurd t i hne hc)
  | succ fuel ih =>
      intro cs h i t hmem hne hocc
      cases cs with
      | nil => exact absurd hocc (fun hc => occursAt_nil_absurd t i hne hc)
      | cons c rest =>
          simp only [hlScanFuel]
          cases hfm : firstTokenMatch tokens (c :: rest) with
          | some t2 =>
              obtain ⟨_, hne2, hmatch2⟩ := firstTokenMatch_some_spec _ _ _ hfm
              have hpos2 := string_length_pos_of_ne t2 hne2
              have hle2 := tokenMatch_le_length t2 (c :: rest) hmatch2
              have hlen2 : ((c :: rest).take t2.length).length = t2.length := by
                rw [List.length_take]
                omega
              simp only [markedAt, hlen2]
              by_cases hi : i < t2.length
              · rw [if_pos hi]
              · rw [if_neg hi]
                have hfuel : ((c :: rest).drop t2.length).length ≤ fuel := by
                  rw [List.length_drop]
                  simp only [List.length_cons] at h hle2 ⊢
                  omega
                refine ih _ hfuel (i - t2.length) t hmem hne ?_
                unfold occursAt at hocc ⊢
                rw [List.drop_drop]
                have harith : t2.length + (i - t2.length) = i := by omega
                rw [harith]
                exact hocc
          | none =>
              cases i with
              | zero =>
                  have habs : tokenMatchAt t (c :: rest) = true := by
                    unfold tokenMatchAt
                    unfold occursAt at hocc
                    simp only [List.drop_zero] at hocc
                    simpa using hocc
                  have hnone := List.find?_eq_none.mp hfm t hmem
                  simp only [Bool.and_eq_true, not_and] at hnone
                  rw [habs] at hnone
                  simp at hnone
                  exact absurd hnone hne
              | succ i2 =>
                  rw [markedAt_consRaw]
                  have hfuel : rest.length ≤ fuel := by
                    simp only [List.length_cons] at h
                    omega
                  refine ih rest hfuel i2 t hmem hne ?_
                  unfold occursAt at hocc ⊢
                  exact hocc

/-- Text content distributes over forest concatenation. -/
theorem textContentF_append (f g : DomForest) :
    textContentF (DomForest.append f g) = textContentF f ++ textContentF g := by
  induction f, g using DomForest.append.induct
  case case1 g => simp [DomForest.append, textContentF]
  case case2 n rest g ih =>
    simp [DomForest.append, textContentF, ih, String.append_assoc]

/-- Attribute values distribute over forest concatenation. -/
theorem attrValuesF_append (f g : DomForest) :
    attrValuesF (DomForest.append f g) = attrValuesF f ++ attrValuesF g := by
  induction f, g using DomForest.append.induct
  case case1 g => simp [DomForest.append, attrValuesF]
  case case2 n rest g ih => simp [DomForest.append, attrValuesF, ih]

/-- The nodes built from scan pieces carry exactly the pieces' text. -/
theorem textContentF_pieces (ps : List Piece) :
    textContentF (piecesToForest ps) = String.mk (piecesText ps) := by
  induction ps with
  | nil => rfl
  | cons p rest ih =>
      cases p with
      | raw s =>
          show String.mk s ++ textContentF (piecesToForest rest) = _
          rw [ih]
          rfl
      | marked s =>
          show (String.mk s ++ "") ++ textContentF (piecesToForest rest) = _
          rw [ih]
          have : String.mk s ++ "" = String.mk s := by
            simp [String.ext_iff]
          rw [this]
          rfl

/-- The nodes built from scan pieces carry no attributes. -/
theorem attrValuesF_pieces (ps : List Piece) :
    attrValuesF (piecesToForest ps) = [] := by
  induction ps with
  | nil => rfl
  | cons p rest ih =>
      cases p with
      | raw s =>
          show attrValuesN (DomNode.text (String.mk s))
            ++ attrValuesF (piecesToForest rest) = []
          rw [ih]
          rfl
      | marked s =>
          show attrValuesN (DomNode.element "MARK" []
              (DomForest.cons (DomNode.text (String.mk s)) DomForest.nil))
            ++ attrValuesF (piecesToForest rest) = []
          rw [ih]
          rfl

/-- The highlighter walk preserves the text content of the tree. -/
theorem highlightForest_textContent (tokens : List String) (f : DomForest) :
    textContentF (highlightForest tokens f) = textContentF f := by
  induction f using highlightForest.induct tokens
  case case1 => rfl
  case case2 tag attrs cs rest ih1 ih2 =>
    show textContentF (DomForest.cons (DomNode.element tag attrs
        (highlightForest tokens cs)) (highlightForest tokens rest)) = _
    simp only [textContentF, textContentN, ih1, ih2]
  case case3 s rest ih =>
    show textContentF (DomForest.append
        (piecesToForest (hlScan tokens s.toList))
        (highlightForest tokens rest)) = _
    rw [textContentF_append, textContentF_pieces, ih]
    unfold hlScan
    rw [hlScanFuel_text tokens s.toList.length s.toList (le_refl _)]
    show String.mk s.toList ++ _ = _
    simp only [textContentF, textContentN]
    congr 1
  case case4 s rest ih =>
    show textContentF (DomForest.cons (DomNode.comment s)
        (highlightForest tokens rest)) = _
    simp only [textContentF, textContentN, ih]

/-- The highlighter walk preserves every attribute value of the tree. -/
theorem highlightForest_attrValues (tokens : List String) (f : DomForest) :
    attrValuesF (highlightForest tokens f) = attrValuesF f := by
  induction f using highlightForest.induct tokens
  case case1 => rfl
  case case2 tag attrs cs rest ih1 ih2 =>
    show attrValuesF (DomForest.cons (DomNode.element tag attrs
        (highlightForest tokens cs)) (highlightForest tokens rest)) = _
    simp only [attrValuesF, attrValuesN, ih1, ih2]
  case case3 s rest ih =>
    show attrValuesF (DomForest.append
        (piecesToForest (hlScan tokens s.toList))
        (highlightForest tokens rest)) = _
    rw [attrValuesF_append, attrValuesF_pieces, ih]
    rfl
  case case4 s rest ih =>
    show attrValuesF (DomForest.cons (DomNode.comment s)
        (highlightForest tokens rest)) = _
    simp only [attrValuesF, attrValuesN, ih]

/-- C5 counterexample: with query "ab ba" on the text node "aba", the single
left-to-right combined-regex pass wraps "ab" and leaves "a"; the occurrence
of the token "ba" at position 1 exists but is not wrapped, so not every
occurrence of every token is wrapped. -/
theorem c5_overlapping_occurrence_not_wrapped :
    highlightHTML (DomForest.ofList [DomNode.text "aba"]) "ab ba"
      = DomForest.ofList
        [DomNode.element "MARK" [] (DomForest.ofList [DomNode.text "ab"]),
          DomNode.text "a"] ∧
    occursAt "ba" "aba".toList 1 ∧
    hlScan (hlTokens "ab ba") "aba".toList
      = [Piece.marked ['a', 'b'], Piece.raw ['a']] ∧
    Piece.marked ['b', 'a'] ∉ hlScan (hlTokens "ab ba") "aba".toList := by
  refine ⟨by decide, by unfold occursAt; decide, by decide, by decide⟩

/-- C5 (amended): for an empty or whitespace-only query `highlightHTML`
returns its input unchanged; otherwise it walks only text nodes — tag names
and attribute values are untouched and text content is preserved — and wraps
the matches of a single left-to-right combined-alternation scan: every
wrapped substring is a case-insensitive occurrence of a query token, and
every occurrence of every token starts inside some wrapped match (an
occurrence overlapping an earlier wrapped match is not itself wrapped). -/
theorem c5_highlight_walk (nodes : DomForest) (query : String) (cs : List Char)
    (s : List Char) (i : Nat) (t : String) :
    (jsTrim query = "" → highlightHTML nodes query = nodes) ∧
    piecesText (hlScan (hlTokens query) cs) = cs ∧
    (Piece.marked s ∈ hlScan (hlTokens query) cs →
      ∃ t2 ∈ hlTokens query, s.map Char.toLower = t2.toList) ∧
    (t ∈ hlTokens query → occursAt t cs i →
      markedAt (hlScan (hlTokens query) cs) i = true) ∧
    textContentF (highlightHTML nodes query) = textContentF nodes ∧
    attrValuesF (highlightHTML nodes query) = attrValuesF nodes := by
  have hne : ∀ t2 ∈ hlTokens query, t2 ≠ "" := by
    intro t2 ht2
    unfold hlTokens at ht2
    have := List.of_mem_filter ht2
    simpa using this
  refine ⟨?_, ?_, ?_, ?_, ?_, ?_⟩
  · intro hq
    unfold highlightHTML
    rw [if_pos hq]
  · exact hlScanFuel_text (hlTokens query) cs.length cs (le_refl _)
  · exact fun hm => hlScanFuel_marked (hlTokens query) cs.length cs s hm
  · intro hmem hocc
    exact hlScanFuel_coverage (hlTokens query) cs.length cs (le_refl _) i t
      hmem (hne t hmem) hocc
  · unfold highlightHTML
    by_cases hq : jsTrim query = ""
    · rw [if_pos hq]
    · rw [if_neg hq]
      by_cases htk : hlTokens query = []
      · simp [htk]
      · rw [if_neg htk]
        exact highlightForest_textContent (hlTokens query) nodes
  · unfold highlightHTML
    by_cases hq : jsTrim query = ""
    · rw [if_pos hq]
    · rw [if_neg hq]
      by_cases htk : hlTokens query = []
      · simp [htk]
      · rw [if_neg htk]
        exact highlightForest_attrValues (hlTokens query) nodes

/-- Witness for C5 at concrete inputs: the whitespace query is the identity,
and on the text "aBcd" with query "bc" the scan preserves text, wraps a
case-insensitive occurrence, and covers position 1. -/
theorem c5_highlight_walk_witness :
    highlightHTML (DomForest.ofList [DomNode.text "abc"]) " "
      = DomForest.ofList [DomNode.text "abc"] ∧
    piecesText (hlScan (hlTokens "bc") "aBcd".toList) = "aBcd".toList ∧
    (∃ t2 ∈ hlTokens "bc", ['B', 'c'].map Char.toLower = t2.toList) ∧
    markedAt (hlScan (hlTokens "bc") "aBcd".toList) 1 = true :=
  ⟨(c5_highlight_walk (DomForest.ofList [DomNode.text "abc"]) " "
      [] [] 0 "").1 (by decide),
   (c5_highlight_walk DomForest.nil "bc" "aBcd".toList [] 0 "").2.1,
   (c5_highlight_walk DomForest.nil "bc" "aBcd".toList ['B', 'c'] 0
      "").2.2.1 (by decide),
   (c5_highlight_walk DomForest.nil "bc" "aBcd".toList [] 1
      "bc").2.2.2.1 (by decide) (by unfold occursAt; decide)⟩

/-- C10 counterexample: resolving a field on a fresh record adds the hidden
`__lc` property, so the record's key set is not the same after the operation
as before: records are not immutable once created. -/
theorem c10_getField_adds_lc_key :
    (getFieldS ⟨[("A", "x")], none⟩ "title").2 ≠ ⟨[("A", "x")], none⟩ ∧
    RecObj.keys (getFieldS ⟨[("A", "x")], none⟩ "title").2 = ["A", "__lc"] ∧
    RecObj.keys ⟨[("A", "x")], none⟩ = ["A"] := by
  refine ⟨by decide, by decide, by decide⟩

/-- C10 (amended): field resolution never adds, removes or alters any
header-to-value entry of a record; the only mutation is memoizing the
lowercase mirror in the hidden `__lc` property on first resolution — a
record that already carries the cache is returned unchanged — and the
resolved values agree with pure resolution over the fields. -/
theorem c10_only_lc_memoization (r : RecObj) (key header : String) :
    (buildLc r).2.fields = r.fields ∧
    (r.lc = none → (buildLc r).2.lc = some (lcMapOf r.fields)) ∧
    (∀ m, r.lc = some m → (buildLc r).2 = r) ∧
    (getFieldS r key).2 = (buildLc r).2 ∧
    (r.lc = none → (getFieldS r key).1 = getField r.fields key) ∧
    (header ≠ "" → (getByHeaderS r header).2 = (buildLc r).2) ∧
    (getByHeaderS r "").2 = r ∧
    (r.lc = none → (getByHeaderS r header).1 = getByHeader r.fields header) := by
  refine ⟨?_, ?_, ?_, ?_, ?_, ?_, ?_, ?_⟩
  · cases hlc : r.lc <;> simp [buildLc, hlc]
  · intro hn; simp [buildLc, hn]
  · intro m hm; simp [buildLc, hm]
  · simp [getFieldS]
  · intro hn; simp [getFieldS, buildLc, hn, getField]
  · intro hh; simp [getByHeaderS, hh]
  · simp [getByHeaderS]
  · intro hn
    unfold getByHeaderS getByHeader
    by_cases hh : header = ""
    · simp [hh]
    · simp [hh, buildLc, hn]

/-- Witness for C10 on a fresh one-field record. -/
theorem c10_only_lc_memoization_witness :
    (buildLc ⟨[("A", "x")], none⟩).2.fields = [("A", "x")] ∧
    (buildLc ⟨[("A", "x")], none⟩).2.lc = some (lcMapOf [("A", "x")]) ∧
    (getFieldS ⟨[("A", "x")], none⟩ "title").2
      = (buildLc ⟨[("A", "x")], none⟩).2 ∧
    (getFieldS ⟨[("A", "x")], none⟩ "title").1 = getField [("A", "x")] "title" ∧
    (getByHeaderS ⟨[("A", "x")], none⟩ "A").2
      = (buildLc ⟨[("A", "x")], none⟩).2 ∧
    (getByHeaderS ⟨[("A", "x")], none⟩ "").2 = ⟨[("A", "x")], none⟩ ∧
    (getByHeaderS ⟨[("A", "x")], none⟩ "A").1 = getByHeader [("A", "x")] "A" :=
  let h := c10_only_lc_memoization ⟨[("A", "x")], none⟩ "title" "A"
  ⟨h.1, h.2.1 rfl, h.2.2.2.1, h.2.2.2.2.1 rfl, h.2.2.2.2.2.1 (by decide),
    h.2.2.2.2.2.2.1, h.2.2.2.2.2.2.2 rfl⟩
